import Mathlib

/-!
Verification development for the brkTrd-zr0 ingestion/scoring core.

Shallow embedding of:
* `RateLimiter.acquire` (src/backend/services/finviz_client.py and
  src/backend/services/sentiment_analyzer.py — the two copies are
  algorithmically identical),
* `HeadlineDeduplicator.find_duplicates` / `deduplicate`
  (src/backend/services/finviz_client.py),
* the tenacity retry policy on `FinvizClient.fetch_portfolio_headlines`,
* `SentimentAnalyzer._parse_model_response`, `_aggregate_sentiments`,
  and the result partitioning in `analyze_headline`,
* `ingest_single_portfolio` / `ingest_portfolios`
  (src/backend/services/ingestion.py).

Machine integers do not overflow in any of the modelled code paths
(timestamps, counts); numbers are modelled as `Nat`/`Int`/`ℚ`.

Layout: all definitions first, then the supporting lemmas, then one theorem
per claim of the specification review (with witnesses/counterexamples).
-/

namespace BrkTrd

/-! ## RateLimiter (finviz_client.py lines 744-776, sentiment_analyzer.py 484-514)

`acquire` runs entirely inside `async with self.lock:`.  `asyncio.Lock` is
not reentrant: a task that already holds the lock and awaits `lock.acquire()`
again waits forever.  The recursive call `return await self.acquire()` is
made while the outer `async with` is still active, so the model threads an
explicit `locked` flag: a call entered while the same task already holds the
lock can never proceed (`none`).  Time is modelled as `Int` seconds; the
`datetime`/`time.time()` subtraction `(now - call) < window` is exact. -/

namespace RateLimiter

/-- The pruning step `self.calls = [c for c in self.calls if now - c < window]`. -/
def prune (window : Int) (now : Int) (calls : List Int) : List Int :=
  calls.filter (fun c => now - c < window)

/-- One task executing `RateLimiter.acquire` on a limiter whose lock state is
`locked` (`true` when this same task already holds `self.lock`).  Returns the
updated `self.calls` on completion, `none` when the call never completes.
`fuel` bounds the recursion depth of the model only; the deadlock result
below holds for every fuel. -/
def acquire (fuel : Nat) (locked : Bool) (rate_limit : Nat) (window : Int)
    (calls : List Int) (now : Int) : Option (List Int) :=
  match fuel with
  | 0 => none
  | fuel + 1 =>
    if locked then
      -- `async with self.lock` on a lock this task already holds: waits forever.
      none
    else
      let pruned := prune window now calls
      if rate_limit ≤ pruned.length then
        -- oldest = self.calls[0]; wait, then `return await self.acquire()`
        -- issued while the outer `async with self.lock:` is still held.
        let oldest := pruned.headD 0
        let wait := window - (now - oldest)
        let now2 := if 0 < wait then now + wait else now
        acquire fuel true rate_limit window pruned now2
      else
        some (pruned ++ [now])

end RateLimiter

/-! ## Retry policy on `FinvizClient.fetch_portfolio_headlines`
(finviz_client.py lines 58-112)

The decorator is
`@retry(stop=stop_after_attempt(3), wait=wait_exponential(multiplier=1, min=2, max=10),
retry=retry_if_exception_type((httpx.HTTPError, httpx.TimeoutException)))`.
In httpx, `TimeoutException` subclasses `TransportError < RequestError <
HTTPError`, and `HTTPStatusError` (raised by `raise_for_status` for **any**
4xx or 5xx response, authorization failures included) also subclasses
`HTTPError`.  So the predicate retries every httpx exception and only
non-httpx exceptions escape unretried. -/

namespace Retry

/-- The httpx exception hierarchy as the retry predicate sees it: every
constructor is an instance of `httpx.HTTPError`. -/
inductive HttpxErr where
  | networkError
  | timeout
  | statusError (code : Nat)
  deriving DecidableEq, Repr

/-- An exception escaping one attempt of `fetch_portfolio_headlines`:
either an httpx exception or anything else (e.g. a parsing error). -/
inductive PyExc where
  | httpx (e : HttpxErr)
  | other (msg : String)
  deriving DecidableEq, Repr

/-- `retry_if_exception_type((httpx.HTTPError, httpx.TimeoutException))`:
all httpx exceptions are `HTTPError` instances, so they all satisfy the
predicate; nothing else does. -/
def retryable : PyExc → Bool
  | .httpx _ => true
  | .other _ => false

/-- `wait_exponential(multiplier, min, max)` of tenacity: for the wait after
attempt number `n` (1-based), `max(max(0, min), min(multiplier * 2^n, max))`. -/
def waitExp (multiplier minW maxW : ℚ) (attemptNumber : Nat) : ℚ :=
  max (max 0 minW) (min (multiplier * 2 ^ attemptNumber) maxW)

/-- The concrete wait schedule of the fetch decorator. -/
def fetchWait (attemptNumber : Nat) : ℚ := waitExp 1 2 10 attemptNumber

/-- The tenacity attempt loop.  `f k` is the outcome of attempt `k`
(1-based), `n` the current attempt number, `remaining` the retries still
allowed by `stop_after_attempt`.  Returns the final outcome and the number
of the last attempt executed.  (On exhaustion tenacity wraps the last
exception in `RetryError`; the payload carried is the final attempt's
exception, which is what the model returns.) -/
def runRetryAux (f : Nat → Except PyExc α) (n : Nat) : Nat → Except PyExc α × Nat
  | 0 =>
    match f n with
    | .ok a => (.ok a, n)
    | .error e => (.error e, n)
  | r + 1 =>
    match f n with
    | .ok a => (.ok a, n)
    | .error e => if retryable e then runRetryAux f (n + 1) r else (.error e, n)

/-- `@retry(stop=stop_after_attempt(maxAttempts), ...)` around `f`. -/
def runRetry (f : Nat → Except PyExc α) (maxAttempts : Nat) : Except PyExc α × Nat :=
  runRetryAux f 1 (maxAttempts - 1)

end Retry

/-! ## `SentimentAnalyzer._parse_model_response` (sentiment_analyzer.py 332-370)
and the result partitioning of `analyze_headline` (lines 119-165)

Python strings are modelled as `List Char` (a Python `str` is a sequence of
code points and `len`/slicing act on code points).  JSON scalars are
modelled by `JValue`; Python numeric equality (`True == 1`, `False == 0`,
`1.0 == 1`, NaN equal to nothing) and `isinstance(x, (int, float))` (which
accepts `bool`, a subclass of `int`, and the non-finite floats) are
mirrored exactly.  `json.loads` with its default `parse_constant` also
accepts the float constants `NaN`, `Infinity` and `-Infinity`; they carry
no rational value, so they are separate constructors and the two range
comparisons of the confidence check are modelled directly per
constructor — for NaN both `confidence < 0` and `confidence > 1` are
False, so NaN passes the source's validation. -/

namespace Parse

/-- A scalar JSON value as `json.loads` produces it (default
`parse_constant`, so the IEEE specials are accepted as floats). -/
inductive JValue where
  | num (q : ℚ)
  | nan
  | inf
  | negInf
  | str (s : List Char)
  | boolean (b : Bool)
  | null
  deriving DecidableEq, Repr

/-- The four fields `data.get(...)` reads; `none` = key absent. -/
structure Fields where
  sentiment : Option JValue
  confidence : Option JValue
  horizon : Option JValue
  rationale : Option JValue
  deriving DecidableEq, Repr

/-- The outcome of `json.loads(response)` as `_parse_model_response` sees it:
decode failure, a non-object document (on which `data.get` raises
`AttributeError`), or an object restricted to the fields the code reads. -/
inductive RawParsed where
  | notJson
  | nonDict
  | dict (f : Fields)
  deriving DecidableEq, Repr

/-- Python `v == n` for an integer literal `n`: finite numeric values
compare by value, `bool` compares as 1/0, and NaN/±Infinity and
non-numbers are equal to no integer. -/
def pyEqInt (v : JValue) (n : Int) : Bool :=
  match v with
  | .num q => q = (n : ℚ)
  | .boolean b => (if b then (1 : Int) else 0) = n
  | _ => false

/-- `sentiment = data.get("sentiment")` (default `None`). -/
def sentVal (f : Fields) : JValue := f.sentiment.getD .null

/-- `sentiment not in [-1, 0, 1]` fails the parse. -/
def sentimentOK (f : Fields) : Bool :=
  pyEqInt (sentVal f) (-1) || pyEqInt (sentVal f) 0 || pyEqInt (sentVal f) 1

/-- `isinstance(confidence, (int, float))`; Python `bool` is a subclass of
`int`, so JSON `true`/`false` pass this check, and NaN and ±Infinity are
`float` instances. -/
def isNumeric (v : JValue) : Bool :=
  match v with
  | .num _ => true
  | .nan => true
  | .inf => true
  | .negInf => true
  | .boolean _ => true
  | _ => false

/-- Python `confidence < 0`: False for NaN (every comparison with NaN is
False), False for `bool` (0/1) and for +Infinity, True for -Infinity;
non-numbers never reach this comparison (`isinstance` is checked first,
and `or` short-circuits). -/
def ltZero (v : JValue) : Bool :=
  match v with
  | .num q => q < 0
  | .negInf => true
  | _ => false

/-- Python `confidence > 1`: False for NaN and `bool` and -Infinity, True
for +Infinity. -/
def gtOne (v : JValue) : Bool :=
  match v with
  | .num q => 1 < q
  | .inf => true
  | _ => false

/-- `confidence = data.get("confidence", 0.5)`. -/
def confVal (f : Fields) : JValue := f.confidence.getD (.num (1 / 2))

/-- `if not isinstance(confidence, (int, float)) or confidence < 0 or
confidence > 1: raise` — the parse keeps the confidence exactly when this
condition is False.  NaN passes: it is a float and both comparisons are
False. -/
def confidenceOK (f : Fields) : Bool :=
  isNumeric (confVal f) && !(ltZero (confVal f)) && !(gtOne (confVal f))

/-- Whether a JSON value denotes a real number lying in [0, 1]
(`bool` counts as its Python numeric value 0/1); NaN and ±Infinity have no
such value and never qualify. -/
def numValueInUnit (v : JValue) : Bool :=
  match v with
  | .num q => decide (0 ≤ q) && decide (q ≤ 1)
  | .boolean _ => true
  | _ => false

/-- `valid_horizons = ["<1h", "1-4h", "same_day", "next_open", "24h"]`. -/
def validHorizons : List (List Char) :=
  ["<1h".data, "1-4h".data, "same_day".data, "next_open".data, "24h".data]

/-- `horizon = data.get("horizon", "same_day")`. -/
def horizonVal (f : Fields) : JValue := f.horizon.getD (.str "same_day".data)

/-- `horizon not in valid_horizons` fails the parse; a non-string value is
`==`-equal to no entry of the list. -/
def horizonOK (f : Fields) : Bool :=
  match horizonVal f with
  | .str s => decide (s ∈ validHorizons)
  | _ => false

/-- `rationale = str(rationale)` when not already a string.  The exact text
of the coercion for non-strings does not matter to any property proved
here; representative renderings are used. -/
def coerceText (v : JValue) : List Char :=
  match v with
  | .str s => s
  | .num q => (toString q).data
  | .nan => "nan".data
  | .inf => "inf".data
  | .negInf => "-inf".data
  | .boolean b => (if b then "True" else "False").data
  | .null => "None".data

/-- `if len(rationale) > 275: rationale = rationale[:272] + "..."`. -/
def truncateRationale (s : List Char) : List Char :=
  if 275 < s.length then s.take 272 ++ "...".data else s

/-- The dict `_parse_model_response` returns on success. -/
structure Vote where
  sentiment : JValue
  confidence : JValue
  horizon : JValue
  rationale : List Char
  deriving DecidableEq, Repr

/-- `_parse_model_response`: raises `ValueError` (modelled as `.error`) on
decode failure or any failed validation, in source order. -/
def parseModelResponse : RawParsed → Except String Vote
  | .notJson => .error "Invalid JSON response"
  | .nonDict => .error "AttributeError: response is not an object"
  | .dict f =>
    if sentimentOK f = false then .error "Invalid sentiment value"
    else if confidenceOK f = false then .error "Invalid confidence value"
    else if horizonOK f = false then .error "Invalid horizon value"
    else .ok
      { sentiment := sentVal f
        confidence := confVal f
        horizon := horizonVal f
        rationale := truncateRationale (coerceText (f.rationale.getD (.str "".data))) }

/-- The loop over `zip(models, results)` in `analyze_headline`: exceptions
(a failed parse re-raised by `_analyze_with_model` included) are collected
as `(model, error)` entries, successes as votes, preserving order. -/
def processResults (pairs : List (String × Except String Vote)) :
    List Vote × List (String × String) :=
  (pairs.filterMap (fun p => p.2.toOption),
   pairs.filterMap (fun p =>
     match p.2 with
     | .error e => some (p.1, e)
     | .ok _ => none))

/-- A concrete well-formed backend response used as a witness input: a
300-character rationale forces truncation. -/
def sampleFields : Fields :=
  ⟨some (.num 1), some (.num (9 / 10)), some (.str "<1h".data),
   some (.str (List.replicate 300 'a'))⟩

/-- The vote `_parse_model_response` produces on `sampleFields`. -/
def sampleVote : Vote :=
  ⟨.num 1, .num (9 / 10), .str "<1h".data, List.replicate 272 'a' ++ "...".data⟩

/-- A response whose confidence is the float constant `NaN` — accepted by
`json.loads` and by the source's validation. -/
def nanFields : Fields :=
  ⟨some (.num 1), some .nan, some (.str "same_day".data), some (.str "ok".data)⟩

/-- The vote the source returns on `nanFields`: its confidence is NaN. -/
def nanVote : Vote := ⟨.num 1, .nan, .str "same_day".data, "ok".data⟩

end Parse

/-! ## `SentimentAnalyzer._aggregate_sentiments` (sentiment_analyzer.py 372-421)

`results` entries carry validated sentiments (-1/0/1 as integers),
confidences and horizon labels.  `collections.Counter` preserves
first-occurrence key order (Python ≥ 3.7 dicts) and `most_common` sorts its
items by count descending with Python's *stable* `sorted`, so ties keep
first-occurrence order; the stable sort is modelled by insertion sort.
`np.std` is the square root of the population variance; the model stores
the (exactly representable) variance `dispersion_sq` — `np.std(...) = 0`
iff `dispersion_sq = 0`, and the `len <= 1` branch returns 0.0 directly. -/

namespace Agg

/-- One element of the `results` list reaching `_aggregate_sentiments`. -/
structure VoteR where
  provider : String
  name : String
  sentiment : Int
  confidence : ℚ
  horizon : List Char
  deriving DecidableEq, Repr

def sumSent (rs : List VoteR) : Int := (rs.map (fun r => r.sentiment)).sum

/-- The `sentiment_sum > 0 / < 0 / else` chain. -/
def majorityVote (rs : List VoteR) : Int :=
  let s := sumSent rs
  if 0 < s then 1 else if s < 0 then -1 else 0

/-- `np.mean(sentiments)` (exact). -/
def avgSentiment (rs : List VoteR) : ℚ := (sumSent rs : ℚ) / rs.length

/-- `np.mean(confidences)` (exact). -/
def avgConfidence (rs : List VoteR) : ℚ :=
  (rs.map (fun r => r.confidence)).sum / rs.length

/-- Population variance of the sentiments; `np.std` is its square root. -/
def popVariance (rs : List VoteR) : ℚ :=
  (rs.map (fun r => ((r.sentiment : ℚ) - avgSentiment rs) ^ 2)).sum / rs.length

/-- `np.std(sentiments) if len(sentiments) > 1 else 0.0`, squared: the
square of the reported dispersion, which is zero iff the dispersion is. -/
def dispersionSq (rs : List VoteR) : ℚ :=
  if 1 < rs.length then popVariance rs else 0

/-- Python 3 `round(x, 3)` (half-to-even), idealised over ℚ. -/
def pyRound3 (q : ℚ) : ℚ :=
  let x := q * 1000
  let f : Int := ⌊x⌋
  let frac := x - f
  let r : Int :=
    if frac < 1 / 2 then f
    else if 1 / 2 < frac then f + 1
    else if f % 2 = 0 then f else f + 1
  (r : ℚ) / 1000

/-- `Counter(horizons)` key set in first-occurrence order. -/
def firstOccKeys (hs : List (List Char)) : List (List Char) :=
  hs.foldl (fun acc h => if h ∈ acc then acc else acc ++ [h]) []

/-- `Counter(horizons).items()`: keys in first-occurrence order, each with
its occurrence count. -/
def counterPairs (hs : List (List Char)) : List (List Char × Nat) :=
  (firstOccKeys hs).map (fun k => (k, hs.count k))

/-- One step of the stable descending-by-count insertion sort: `x` precedes
every element whose count does not exceed its own (Python `sorted` is
stable, so an earlier element wins ties). -/
def insertDesc (x : List Char × Nat) : List (List Char × Nat) → List (List Char × Nat)
  | [] => [x]
  | y :: ys => if y.2 ≤ x.2 then x :: y :: ys else y :: insertDesc x ys

/-- `sorted(items, key=itemgetter(1), reverse=True)` (stable). -/
def sortDesc (l : List (List Char × Nat)) : List (List Char × Nat) :=
  l.foldr insertDesc []

/-- `Counter(horizons).most_common(1)[0]` when it exists. -/
def mostCommonTop (hs : List (List Char)) : Option (List Char × Nat) :=
  (sortDesc (counterPairs hs)).head?

/-- `horizon_vote = horizon_counts.most_common(1)[0][0] if horizon_counts else None`. -/
def horizonVote (rs : List VoteR) : Option (List Char) :=
  (mostCommonTop (rs.map (fun r => r.horizon))).map (fun p => p.1)

/-- The dict `_aggregate_sentiments` returns (dispersion stored squared). -/
structure Consensus where
  avg_sentiment : ℚ
  avg_confidence : ℚ
  dispersion_sq : ℚ
  majority_vote : Int
  horizon_vote : Option (List Char)
  num_models : Nat
  model_votes : List (String × Int × ℚ × List Char)
  deriving DecidableEq, Repr

/-- `_aggregate_sentiments`: `None` on an empty result list. -/
def aggregate (rs : List VoteR) : Option Consensus :=
  if rs.isEmpty then none
  else some
    { avg_sentiment := pyRound3 (avgSentiment rs)
      avg_confidence := pyRound3 (avgConfidence rs)
      dispersion_sq := dispersionSq rs
      majority_vote := majorityVote rs
      horizon_vote := horizonVote rs
      num_models := rs.length
      model_votes := rs.map (fun r =>
        (r.provider ++ ":" ++ r.name, r.sentiment, r.confidence, r.horizon)) }

/-- The largest count occurring in a counter item list. -/
def maxCount (l : List (List Char × Nat)) : Nat :=
  (l.map (fun p => p.2)).foldr max 0

/-- Two opposing votes with distinct horizons: the spec's tie example. -/
def sampleVotes : List VoteR :=
  [⟨"groq", "a", 1, 1, "<1h".data⟩, ⟨"openrouter", "b", -1, 1, "24h".data⟩]

end Agg

/-! ## `HeadlineDeduplicator` (finviz_client.py lines 779-863)

The similarity oracle `fuzz.ratio` is an external library call returning an
integer 0–100; the model abstracts it as a parameter `simFn`.  The
constructor computes `self.threshold = threshold * 100`; for the default
`0.85` the float product is exactly `85.0`, so `similarity >= threshold`
with an integer similarity is exactly `85 ≤ simFn …`.

`deduplicate` manipulates shared dicts: `best["duplicate_count"] = …`
mutates the headline in place, and the same dict object may be appended to
the output several times: the model computes each headline's *final* field
values (last write wins) and builds the output from them.

Python materialises `expanded = set(...)` and iterates small-int sets in an
implementation-defined order; every property proved below is invariant
under the order of elements inside a group, and first-insertion order is
used.  The standalone loop iterates `set(range(n)) - seen`, which for
small ints is ascending index order, as modelled. -/

namespace Dedup

/-- The headline dict fields `deduplicate` reads or writes:
`ticker`, `normalized_headline`, `is_primary_source`, `headline_timestamp`,
and the two annotation keys added by the mutation (absent initially). -/
structure Headline where
  ticker : String
  normalized : String
  is_primary : Bool
  ts : Int
  has_dups : Bool := false
  dup_count : Option Nat := none
  deriving DecidableEq, Repr

instance : Inhabited Headline := ⟨⟨"", "", false, 0, false, none⟩⟩

/-- `headlines[i]` — every index handled below is in range. -/
def item (hl : List Headline) (i : Nat) : Headline := hl.getD i default

/-- The pair test of `find_duplicates`: similarity at or above the
threshold *and* equal ticker. -/
def linkb (simFn : String → String → Nat) (threshold : Nat)
    (hl : List Headline) (i j : Nat) : Bool :=
  decide (threshold ≤ simFn (item hl i).normalized (item hl j).normalized) &&
    decide ((item hl i).ticker = (item hl j).ticker)

/-- `find_duplicates`: all pairs `(i, j)` with `i < j` passing the link
test, in the nested-loop order. -/
def findDuplicates (simFn : String → String → Nat) (threshold : Nat)
    (hl : List Headline) : List (Nat × Nat) :=
  (List.range hl.length).flatMap (fun i =>
    ((List.range hl.length).filter (fun j => i < j)).filterMap (fun j =>
      if linkb simFn threshold hl i j then some (i, j) else none))

/-- One pair into the `groups` dict: `if i not in groups: groups[i] = [i]`,
then `groups[i].append(j)`.  The dict is an association list in key
insertion order. -/
def addPair (groups : List (Nat × List Nat)) (p : Nat × Nat) :
    List (Nat × List Nat) :=
  if (groups.find? (fun g => g.1 = p.1)).isSome then
    groups.map (fun g => if g.1 = p.1 then (g.1, g.2 ++ [p.2]) else g)
  else
    groups ++ [(p.1, [p.1, p.2])]

/-- The first loop of `deduplicate`. -/
def buildGroups (dups : List (Nat × Nat)) : List (Nat × List Nat) :=
  dups.foldl addPair []

/-- `groups[idx]` when `idx in groups`. -/
def lookupGroup (groups : List (Nat × List Nat)) (idx : Nat) : Option (List Nat) :=
  (groups.find? (fun g => g.1 = idx)).map (fun g => g.2)

/-- Set-like duplicate removal keeping first occurrences. -/
def dedupFirst (l : List Nat) : List Nat :=
  l.foldl (fun acc x => if x ∈ acc then acc else acc ++ [x]) []

/-- `expanded = set(group); for idx in group: if idx in groups:
expanded.update(groups[idx])` — one level of expansion only. -/
def expandGroup (groups : List (Nat × List Nat)) (g : List Nat) : List Nat :=
  dedupFirst (g ++ g.flatMap (fun idx => (lookupGroup groups idx).getD []))

/-- One iteration of the merge loop; the state is
`(merged_groups, seen)`, `seen` kept duplicate-free. -/
def mergeStep (groups : List (Nat × List Nat))
    (st : List (List Nat) × List Nat) (pg : Nat × List Nat) :
    List (List Nat) × List Nat :=
  if pg.1 ∈ st.2 then st
  else
    let expanded := expandGroup groups pg.2
    (st.1 ++ [expanded], st.2 ++ expanded.filter (fun x => x ∉ st.2))

/-- The groups `deduplicate` selects representatives from: the merged
groups in construction order followed by singleton groups for the
never-seen indices. -/
def mergedGroups (simFn : String → String → Nat) (threshold : Nat)
    (hl : List Headline) : List (List Nat) :=
  let groups := buildGroups (findDuplicates simFn threshold hl)
  let st := groups.foldl (mergeStep groups) ([], [])
  st.1 ++ ((List.range hl.length).filter (fun k => k ∉ st.2)).map (fun k => [k])

/-- Sort-key rank of `not h["is_primary_source"]`: primary sources first. -/
def primRank (h : Headline) : Nat := if h.is_primary then 0 else 1

/-- Strict comparison under the sort key
`(not is_primary_source, headline_timestamp)`. -/
def keyLtb (a b : Headline) : Bool :=
  decide (primRank a < primRank b) ||
    (decide (primRank a = primRank b) && decide (a.ts < b.ts))

/-- `group_headlines.sort(key=…); best = group_headlines[0]`: the stable
sort's head, i.e. the earliest group member attaining the minimal key —
the fold replaces the candidate only on a strictly smaller key. -/
def bestIdx (hl : List Headline) (g : List Nat) : Nat :=
  match g with
  | [] => 0
  | x :: xs => xs.foldl (fun b i => if keyLtb (item hl i) (item hl b) then i else b) x

/-- Final value of the annotation for index `k` after the whole loop:
`best["duplicate_count"] = len(group) - 1` executes once per merged group
with more than one member whose representative is `k`; the dicts are
shared by reference, so the last write wins. -/
def finalCount (hl : List Headline) (mgs : List (List Nat)) (k : Nat) :
    Option Nat :=
  ((mgs.filter (fun g => decide (bestIdx hl g = k) && decide (1 < g.length))).getLast?).map
    (fun g => g.length - 1)

/-- The headline dict for index `k` in its final state. -/
def annotate (hl : List Headline) (mgs : List (List Nat)) (k : Nat) : Headline :=
  match finalCount hl mgs k with
  | some c => { item hl k with has_dups := true, dup_count := some c }
  | none => item hl k

/-- `deduplicate`: one (finally-mutated) representative per group, in group
order. -/
def deduplicate (simFn : String → String → Nat) (threshold : Nat)
    (hl : List Headline) : List Headline :=
  let mgs := mergedGroups simFn threshold hl
  mgs.map (fun g => annotate hl mgs (bestIdx hl g))

/-! Concrete inputs for the counterexamples.  The normalized texts are
20-character strings whose pairwise `fuzz.ratio` values (python-Levenshtein
scoring: substitutions weigh 2, ratio = (lenSum - dist)/lenSum × 100) are
85 for 3 differing positions and 70 for 6, matching the tables below. -/

/-- 20 `a`s. -/
def nta : String := "aaaaaaaaaaaaaaaaaaaa"

/-- 3 substitutions at positions 0-2. -/
def ntb : String := "bbbaaaaaaaaaaaaaaaaa"

/-- 3 substitutions at positions 5-7. -/
def ntc : String := "aaaaacccaaaaaaaaaaaa"

/-- `ntb` with 3 further substitutions at positions 10-12. -/
def ntd : String := "bbbaaaaaaadddaaaaaaa"

/-- 20 `e`s: far from everything else. -/
def nte : String := "eeeeeeeeeeeeeeeeeeee"

/-- Similarity table for the C2 counterexample: `ntb`–`nta` and `ntc`–`nta`
are at 85 (3 substitutions each), `ntb`–`ntc` at 70 (6 substitutions). -/
def simC2 (a b : String) : Nat :=
  if a = b then 100
  else if (a = ntb ∧ b = ntc) ∨ (a = ntc ∧ b = ntb) then 70
  else 85

/-- Three same-ticker headlines: 0 and 1 are each linked to 2 but not to
each other. -/
def hlC2 : List Headline :=
  [⟨"AAPL", ntb, false, 0, false, none⟩,
   ⟨"AAPL", ntc, false, 1, false, none⟩,
   ⟨"AAPL", nta, false, 2, false, none⟩]

/-- Similarity table for the C3 counterexample: links 0–2, 0–4, 1–2 only. -/
def simC3 (a b : String) : Nat :=
  if a = b then 100
  else if (a = nta ∧ b = ntb) ∨ (a = ntb ∧ b = nta) then 85
  else if (a = nta ∧ b = ntc) ∨ (a = ntc ∧ b = nta) then 85
  else if (a = ntd ∧ b = ntb) ∨ (a = ntb ∧ b = ntd) then 85
  else 70

/-- Five same-ticker headlines; index 2 is the only primary source, so it
is the representative of both overlapping groups. -/
def hlC3 : List Headline :=
  [⟨"AAPL", nta, false, 0, false, none⟩,
   ⟨"AAPL", ntd, false, 1, false, none⟩,
   ⟨"AAPL", ntb, true, 2, false, none⟩,
   ⟨"AAPL", nte, false, 3, false, none⟩,
   ⟨"AAPL", ntc, false, 4, false, none⟩]

end Dedup

/-! ## `ingest_single_portfolio` / `ingest_portfolios` (ingestion.py 70-358)

The model abstracts the collaborators exactly at their call sites: the
dedup pass is a parameter `dedupeFn` (a pure function of the fetched
batch), the persisted hash set is a list `db`, the fetch and the batch
commit are outcome parameters, and the lock write
`cache_manager.redis.set(key, "1", nx=True, ex=300)` is summarised by its
three observable outcomes.  Each run also yields its event trace, in
program order, to settle the ordering claims: note that the lock-release
`finally` is attached to the *fetch* try-block alone, so it fires right
after the fetch — on success and on error alike — before deduplication,
the hash lookup, the persist and the cache invalidation. -/

namespace Ingest

/-- Observable milestones of one `ingest_single_portfolio` pass, in
execution order. -/
inductive Event where
  | lockAttempt
  | lockAcquired
  | fetchCall
  | lockReleased
  | dedupe
  | hashLookup
  | persistCall
  | cacheInvalidate
  | report
  deriving DecidableEq, Repr

/-- Outcome of the lock write `redis.set(lock_key, "1", nx=True, ex=300)`:
`acquired` (returns True), `held` (key exists, returns None — falsy), or
`raises` (exception caught, `lock_acquired` stays False). -/
inductive LockSet where
  | acquired
  | held
  | raises
  deriving DecidableEq, Repr

/-- The cache manager as the locking code sees it:
`getattr(cache_manager, "redis", None)` — `none` means no redis handle. -/
structure CacheMgr where
  redis : Option LockSet
  deriving DecidableEq, Repr

/-- A deduplicated item as the persistence loop reads it: `none` models a
missing or falsy (empty) `headline_hash`. -/
structure Item where
  hash : Option String
  ticker : String
  deriving DecidableEq, Repr

inductive FetchOutcome where
  | ok (items : List Item)
  | raises (msg : String)
  deriving DecidableEq, Repr

inductive PersistOutcome where
  | ok
  | raises (msg : String)
  deriving DecidableEq, Repr

/-- The external circumstances of one per-source pass. -/
structure Scene where
  cacheManager : Option CacheMgr
  fetch : FetchOutcome
  persist : PersistOutcome
  deriving DecidableEq, Repr

/-- The per-source result dict fields the claims inspect. -/
structure Summary where
  status : String
  reason : Option String := none
  fetched : Nat := 0
  persisted : Nat := 0
  duplicates : Nat := 0
  error : Option String := none
  deriving DecidableEq, Repr

/-- State of the idempotency filter loop: `new_instances`, `seen_hashes`
(in insertion order) and `duplicate_count`. -/
structure PState where
  newItems : List Item
  seen : List String
  dups : Nat
  deriving DecidableEq, Repr

/-- One iteration of the filter loop: a missing hash, an already-persisted
hash, or a hash repeated within the batch counts as a duplicate; otherwise
the item is queued for the batch insert and its hash recorded. -/
def processStep (db : List String) (st : PState) (it : Item) : PState :=
  match it.hash with
  | none => { st with dups := st.dups + 1 }
  | some h =>
    if h ∈ db ∨ h ∈ st.seen then { st with dups := st.dups + 1 }
    else { st with newItems := st.newItems ++ [it], seen := st.seen ++ [h] }

/-- The whole filter loop over the deduplicated payload. -/
def processItems (db : List String) (items : List Item) : PState :=
  items.foldl (processStep db) ⟨[], [], 0⟩

/-- Lock phase: whether the lock write was attempted and whether it
acquired the lock. -/
def lockPhase (cm : Option CacheMgr) : Bool × Bool :=
  match cm with
  | none => (false, false)
  | some c =>
    match c.redis with
    | none => (false, false)
    | some .acquired => (true, true)
    | some .held => (true, false)
    | some .raises => (true, false)

/-- `ingest_single_portfolio`: event trace and result.  `.error` models the
re-raised persistence exception; every other path returns a summary dict. -/
def ingestSingle (dedupeFn : List Item → List Item) (db : List String)
    (sc : Scene) : List Event × Except String Summary :=
  let lp := lockPhase sc.cacheManager
  let tr0 := (if lp.1 then [Event.lockAttempt] else []) ++
    (if lp.2 then [Event.lockAcquired] else [])
  if sc.cacheManager.isSome ∧ lp.2 = false then
    (tr0, .ok { status := "skipped", reason := some "lock_not_acquired" })
  else
    let tr1 := tr0 ++ [Event.fetchCall]
    match sc.fetch with
    | .raises msg =>
      -- `except` returns the error dict; the `finally` still releases.
      (tr1 ++ (if lp.2 then [Event.lockReleased] else []),
       .ok { status := "error", error := some msg })
    | .ok items =>
      -- the `finally` releases the lock as soon as the try-block exits.
      let tr2 := tr1 ++ (if lp.2 then [Event.lockReleased] else [])
      if items.isEmpty then
        (tr2 ++ [Event.report], .ok { status := "empty" })
      else
        let deduped := dedupeFn items
        let st := processItems db deduped
        let tr3 := tr2 ++ [Event.dedupe, Event.hashLookup, Event.persistCall]
        match sc.persist with
        | .raises msg =>
          -- rollback, then the persist `finally` invalidates caches, then re-raise.
          (tr3 ++ [Event.cacheInvalidate], .error msg)
        | .ok =>
          (tr3 ++ [Event.cacheInvalidate, Event.report],
           .ok { status := "success", fetched := items.length,
                 persisted := st.newItems.length, duplicates := st.dups })

/-- The hash set after a successful pass: the batch insert adds exactly the
new items' hashes. -/
def dbAfter (dedupeFn : List Item → List Item) (db : List String)
    (items : List Item) : List String :=
  db ++ (processItems db (dedupeFn items)).seen

/-- The aggregated dict of `ingest_portfolios` (fields the claims
inspect).  The disabled/skipped paths return before any work. -/
structure Overall where
  status : String
  errors : Nat
  persisted : Nat
  details : List Summary
  deriving DecidableEq, Repr

/-- Whether a worker raised (only a persistence failure or another escaped
exception does; a fetch failure returns an error *dict*). -/
def isErr (r : Except String Summary) : Bool :=
  match r with
  | .error _ => true
  | .ok _ => false

/-- `ingest_portfolios` over resolved sources: the `as_completed` loop
counts only *raised* worker exceptions in `overall["errors"]`; details are
gathered in completion order, which only permutes `details` and leaves
the status, tally and persisted sum unchanged — list order is used. -/
def ingestPortfolios (enabled : Bool) (dedupeFn : List Item → List Item)
    (db : List String) (targets : List Scene) : Overall :=
  if enabled = false then { status := "disabled", errors := 0, persisted := 0, details := [] }
  else if targets.isEmpty then { status := "skipped", errors := 0, persisted := 0, details := [] }
  else
    let results := targets.map (fun sc => (ingestSingle dedupeFn db sc).2)
    let details := results.filterMap (fun r => r.toOption)
    let errors := (results.filter isErr).length
    { status := if errors = 0 then "completed" else "partial"
      errors := errors
      persisted := (details.map (fun s => s.persisted)).sum
      details := details }

end Ingest

end BrkTrd

/-! ## Supporting lemmas -/

namespace BrkTrd.RateLimiter

/-- Below the limit, `acquire` records `now` and completes at once. -/
theorem acquire_below_limit (fuel : Nat) (rate_limit : Nat) (window : Int)
    (calls : List Int) (now : Int)
    (h : (prune window now calls).length < rate_limit) :
    acquire (fuel + 1) false rate_limit window calls now =
      some (prune window now calls ++ [now]) := by
  simp [acquire, Nat.not_le.2 h]

/-- A call entered while this task already holds the lock never completes. -/
theorem acquire_locked (fuel : Nat) (rate_limit : Nat) (window : Int)
    (calls : List Int) (now : Int) :
    acquire fuel true rate_limit window calls now = none := by
  cases fuel <;> rfl

/-- At or above the limit, the recursive retry re-awaits the already-held
lock: the call never completes, for any fuel. -/
theorem acquire_at_limit_deadlock (fuel : Nat) (rate_limit : Nat)
    (window : Int) (calls : List Int) (now : Int)
    (h : rate_limit ≤ (prune window now calls).length) :
    acquire fuel false rate_limit window calls now = none := by
  cases fuel with
  | zero => rfl
  | succ n =>
    simp only [acquire, Bool.false_eq_true, if_false, if_pos h]
    exact acquire_locked n rate_limit window _ _

end BrkTrd.RateLimiter

namespace BrkTrd.Retry

theorem runRetryAux_snd_le (f : Nat → Except PyExc α) (n r : Nat) :
    (runRetryAux f n r).2 ≤ n + r := by
  induction r generalizing n with
  | zero =>
    simp only [runRetryAux]
    cases f n <;> simp
  | succ r ih =>
    simp only [runRetryAux]
    cases f n with
    | ok a => simp
    | error e =>
      by_cases h : retryable e = true
      · simp only [h, if_true]
        exact le_trans (ih (n + 1)) (by omega)
      · simp [h]

theorem runRetryAux_le_snd (f : Nat → Except PyExc α) (n r : Nat) :
    n ≤ (runRetryAux f n r).2 := by
  induction r generalizing n with
  | zero =>
    simp only [runRetryAux]
    cases f n <;> simp
  | succ r ih =>
    simp only [runRetryAux]
    cases f n with
    | ok a => simp
    | error e =>
      by_cases h : retryable e = true
      · simp only [h, if_true]
        exact le_trans (Nat.le_succ n) (ih (n + 1))
      · simp [h]

/-- At most `maxAttempts` attempts are ever made. -/
theorem runRetry_attempts_le (f : Nat → Except PyExc α) :
    (runRetry f 3).2 ≤ 3 :=
  runRetryAux_snd_le f 1 2

/-- A non-httpx exception on the first attempt is surfaced at once. -/
theorem runRetry_not_retryable (f : Nat → Except PyExc α) (e : PyExc)
    (hf : f 1 = .error e) (he : retryable e = false) :
    runRetry f 3 = (.error e, 1) := by
  simp [runRetry, runRetryAux, hf, he]

/-- An httpx exception on the first attempt — a 401/403 authorization
status error included — is always retried: a second attempt happens. -/
theorem runRetry_httpx_retried (f : Nat → Except PyExc α) (e : HttpxErr)
    (hf : f 1 = .error (.httpx e)) :
    2 ≤ (runRetry f 3).2 := by
  have h : runRetry f 3 = runRetryAux f 2 1 := by
    simp [runRetry, runRetryAux, hf, retryable]
  rw [h]
  exact runRetryAux_le_snd f 2 1

/-- The wait between attempts is clamped to `[2, 10]` seconds. -/
theorem fetchWait_bounds (n : Nat) : 2 ≤ fetchWait n ∧ fetchWait n ≤ 10 := by
  constructor
  · exact le_trans (by norm_num : (2 : ℚ) ≤ max 0 2) (le_max_left _ _)
  · apply max_le (by norm_num)
    exact min_le_right _ _

end BrkTrd.Retry

namespace BrkTrd.Parse

theorem parse_ok_iff (r : RawParsed) :
    (∃ v, parseModelResponse r = .ok v) ↔
      ∃ f, r = .dict f ∧ sentimentOK f = true ∧ confidenceOK f = true ∧
        horizonOK f = true := by
  cases r with
  | notJson => simp [parseModelResponse]
  | nonDict => simp [parseModelResponse]
  | dict f =>
    constructor
    · rintro ⟨v, hv⟩
      simp only [parseModelResponse] at hv
      by_cases hs : sentimentOK f = false
      · rw [if_pos hs] at hv
        exact absurd hv (by simp)
      by_cases hc : confidenceOK f = false
      · rw [if_neg hs, if_pos hc] at hv
        exact absurd hv (by simp)
      by_cases hh : horizonOK f = false
      · rw [if_neg hs, if_neg hc, if_pos hh] at hv
        exact absurd hv (by simp)
      refine ⟨f, rfl, ?_, ?_, ?_⟩
      · revert hs
        cases sentimentOK f <;> simp
      · revert hc
        cases confidenceOK f <;> simp
      · revert hh
        cases horizonOK f <;> simp
    · rintro ⟨f', hf', hs, hc, hh⟩
      cases hf'
      refine ⟨⟨sentVal f, confVal f, horizonVal f,
        truncateRationale (coerceText (f.rationale.getD (.str "".data)))⟩, ?_⟩
      simp only [parseModelResponse]
      rw [if_neg (by simp [hs]), if_neg (by simp [hc]), if_neg (by simp [hh])]

theorem truncateRationale_length (s : List Char) :
    (truncateRationale s).length ≤ 275 := by
  unfold truncateRationale
  by_cases h : 275 < s.length
  · rw [if_pos h]
    simp [List.length_take]
  · rw [if_neg h]
    omega

theorem parse_rationale (f : Fields) (v : Vote)
    (hv : parseModelResponse (.dict f) = .ok v) :
    v.rationale = truncateRationale (coerceText (f.rationale.getD (.str "".data))) := by
  simp only [parseModelResponse] at hv
  by_cases hs : sentimentOK f = false
  · rw [if_pos hs] at hv
    exact absurd hv (by simp)
  by_cases hc : confidenceOK f = false
  · rw [if_neg hs, if_pos hc] at hv
    exact absurd hv (by simp)
  by_cases hh : horizonOK f = false
  · rw [if_neg hs, if_neg hc, if_pos hh] at hv
    exact absurd hv (by simp)
  rw [if_neg hs, if_neg hc, if_neg hh, Except.ok.injEq] at hv
  rw [← hv]

theorem processResults_isolation (l₁ l₂ : List (String × Except String Vote))
    (m e : String) :
    processResults (l₁ ++ (m, .error e) :: l₂) =
      ((processResults l₁).1 ++ (processResults l₂).1,
       (processResults l₁).2 ++ (m, e) :: (processResults l₂).2) := by
  simp [processResults, List.filterMap_append, Except.toOption]

/-- `sentiment in [-1, 0, 1]` holds exactly of finite numbers whose value
is -1, 0 or 1, and of both booleans (`True == 1`, `False == 0`); NaN and
±Infinity equal no list entry. -/
theorem sentimentOK_iff (f : Fields) :
    sentimentOK f = true ↔
      (∃ q : ℚ, sentVal f = .num q ∧ (q = -1 ∨ q = 0 ∨ q = 1)) ∨
        (∃ b, sentVal f = .boolean b) := by
  unfold sentimentOK
  cases h : sentVal f with
  | num q =>
    simp only [pyEqInt, Bool.or_eq_true, decide_eq_true_eq, JValue.num.injEq]
    push_cast
    constructor
    · intro hq
      exact Or.inl ⟨q, rfl, or_assoc.mp hq⟩
    · rintro (⟨q', hq', hval⟩ | ⟨b, hb⟩)
      · cases hq'
        exact or_assoc.mpr hval
      · cases hb
  | nan => simp [pyEqInt]
  | inf => simp [pyEqInt]
  | negInf => simp [pyEqInt]
  | str s => simp [pyEqInt]
  | boolean b => cases b <;> simp [pyEqInt]
  | null => simp [pyEqInt]

/-- The confidence check passes exactly for finite numbers in [0, 1], for
booleans, and for NaN — NaN is a `float` instance and fails both the
`< 0` and the `> 1` comparison, so the source accepts it. -/
theorem confidenceOK_iff (f : Fields) :
    confidenceOK f = true ↔
      (∃ q : ℚ, confVal f = .num q ∧ 0 ≤ q ∧ q ≤ 1) ∨
        (∃ b, confVal f = .boolean b) ∨ confVal f = .nan := by
  unfold confidenceOK
  cases h : confVal f with
  | num q =>
    simp only [isNumeric, ltZero, gtOne, Bool.and_eq_true, Bool.not_eq_true',
      decide_eq_false_iff_not, not_lt, true_and, JValue.num.injEq]
    constructor
    · rintro ⟨h0, h1⟩
      exact Or.inl ⟨q, rfl, h0, h1⟩
    · rintro (⟨q', hq', h0, h1⟩ | ⟨b, hb⟩ | hn)
      · cases hq'
        exact ⟨h0, h1⟩
      · cases hb
      · cases hn
  | nan => simp [isNumeric, ltZero, gtOne]
  | inf => simp [isNumeric, ltZero, gtOne]
  | negInf => simp [isNumeric, ltZero, gtOne]
  | str s => simp [isNumeric]
  | boolean b => simp [isNumeric, ltZero, gtOne]
  | null => simp [isNumeric]

theorem horizonOK_iff (f : Fields) :
    horizonOK f = true ↔ ∃ s, s ∈ validHorizons ∧ horizonVal f = .str s := by
  unfold horizonOK
  cases h : horizonVal f with
  | str s =>
    simp only [decide_eq_true_eq, JValue.str.injEq]
    constructor
    · intro hs
      exact ⟨s, hs, rfl⟩
    · rintro ⟨s', hs', rfl⟩
      exact hs'
  | num q => simp
  | nan => simp
  | inf => simp
  | negInf => simp
  | boolean b => simp
  | null => simp

end BrkTrd.Parse

namespace BrkTrd.Agg

theorem insertDesc_length (x : List Char × Nat) (l : List (List Char × Nat)) :
    (insertDesc x l).length = l.length + 1 := by
  induction l with
  | nil => rfl
  | cons y ys ih =>
    simp only [insertDesc]
    by_cases h : y.2 ≤ x.2
    · simp [h]
    · simp [h, ih]

theorem sortDesc_length (l : List (List Char × Nat)) :
    (sortDesc l).length = l.length := by
  induction l with
  | nil => rfl
  | cons x xs ih =>
    show (insertDesc x (sortDesc xs)).length = xs.length + 1
    rw [insertDesc_length, ih]

theorem sortDesc_eq_nil_iff (l : List (List Char × Nat)) :
    sortDesc l = [] ↔ l = [] := by
  constructor
  · intro h
    have := sortDesc_length l
    rw [h] at this
    exact List.eq_nil_of_length_eq_zero this.symm
  · rintro rfl
    rfl

/-- Head of the stable descending sort = first element attaining the
maximal count: "most frequent, ties broken by first occurrence". -/
theorem sortDesc_head (l : List (List Char × Nat)) :
    (sortDesc l).head? = l.find? (fun p => p.2 = maxCount l) := by
  induction l with
  | nil => rfl
  | cons x xs ih =>
    show (insertDesc x (sortDesc xs)).head? = _
    cases hsx : sortDesc xs with
    | nil =>
      have hxs : xs = [] := (sortDesc_eq_nil_iff xs).mp hsx
      subst hxs
      simp [insertDesc, maxCount]
    | cons y ys =>
      have hfind : xs.find? (fun p => p.2 = maxCount xs) = some y := by
        rw [← ih, hsx]
        rfl
      have hy : y.2 = maxCount xs := by
        have h := List.find?_some hfind
        simpa using h
      by_cases hle : y.2 ≤ x.2
      · simp only [insertDesc, if_pos hle, List.head?_cons]
        have hmax : maxCount (x :: xs) = x.2 := by
          show max x.2 (maxCount xs) = x.2
          omega
        rw [List.find?_cons_of_pos _ (by simp [hmax])]
      · push_neg at hle
        simp only [insertDesc, if_neg (not_le.mpr hle), List.head?_cons]
        have hmax : maxCount (x :: xs) = maxCount xs := by
          show max x.2 (maxCount xs) = maxCount xs
          omega
        rw [List.find?_cons_of_neg _ (by simp [hmax]; omega), hmax, hfind]

/-- The if/else chain computing the majority is the sign of the sum. -/
theorem majorityVote_eq_sign (rs : List VoteR) :
    majorityVote rs = Int.sign (sumSent rs) := by
  unfold majorityVote
  rcases lt_trichotomy (sumSent rs) 0 with h | h | h
  · rw [if_neg (by omega), if_pos h, Int.sign_eq_neg_one_iff_neg.mpr h]
  · rw [h]
    rfl
  · rw [if_pos h, Int.sign_eq_one_iff_pos.mpr h]

theorem dispersionSq_single (rs : List VoteR) (h : rs.length = 1) :
    dispersionSq rs = 0 := by
  unfold dispersionSq
  rw [if_neg (by omega)]

end BrkTrd.Agg

namespace BrkTrd.Dedup

theorem dedupFirst_mem (l : List Nat) (a : Nat) : a ∈ dedupFirst l ↔ a ∈ l := by
  suffices h : ∀ acc : List Nat,
      a ∈ l.foldl (fun acc x => if x ∈ acc then acc else acc ++ [x]) acc ↔
        a ∈ acc ∨ a ∈ l by
    simpa [dedupFirst] using h []
  induction l with
  | nil =>
    intro acc
    simp
  | cons x xs ih =>
    intro acc
    simp only [List.foldl_cons]
    by_cases hx : x ∈ acc
    · rw [if_pos hx, ih]
      constructor
      · rintro (h | h)
        · exact Or.inl h
        · exact Or.inr (List.mem_cons_of_mem _ h)
      · rintro (h | h)
        · exact Or.inl h
        · rcases List.mem_cons.mp h with rfl | h
          · exact Or.inl hx
          · exact Or.inr h
    · rw [if_neg hx, ih]
      simp only [List.mem_append, List.mem_singleton, List.mem_cons]
      tauto

theorem keyLtb_irrefl (a : Headline) : keyLtb a a = false := by
  simp [keyLtb]

theorem keyLtb_trans (a b c : Headline) (hab : keyLtb a b = true)
    (hbc : keyLtb b c = true) : keyLtb a c = true := by
  simp only [keyLtb, Bool.or_eq_true, Bool.and_eq_true, decide_eq_true_eq] at hab hbc ⊢
  omega

theorem keyLtb_false_lt_trans (x b r : Headline) (hxb : keyLtb x b = false)
    (hxr : keyLtb x r = true) : keyLtb b r = true := by
  simp only [keyLtb, Bool.or_eq_true, Bool.and_eq_true, decide_eq_true_eq,
    Bool.or_eq_false_iff, Bool.and_eq_false_iff, decide_eq_false_iff_not] at hxb hxr ⊢
  omega

theorem foldlMin_mem (hl : List Headline) (b : Nat) (xs : List Nat) :
    xs.foldl (fun b i => if keyLtb (item hl i) (item hl b) then i else b) b = b ∨
      xs.foldl (fun b i => if keyLtb (item hl i) (item hl b) then i else b) b ∈ xs := by
  induction xs generalizing b with
  | nil => exact Or.inl rfl
  | cons x xs ih =>
    simp only [List.foldl_cons]
    rcases ih (if keyLtb (item hl x) (item hl b) then x else b) with h | h
    · rw [h]
      by_cases hx : keyLtb (item hl x) (item hl b) = true
      · rw [if_pos hx]
        exact Or.inr (List.mem_cons_self _ _)
      · rw [if_neg hx]
        exact Or.inl rfl
    · exact Or.inr (List.mem_cons_of_mem _ h)

theorem foldlMin_min (hl : List Headline) (xs : List Nat) (b : Nat) :
    ∀ i, (i = b ∨ i ∈ xs) →
      keyLtb (item hl i)
        (item hl (xs.foldl (fun b i => if keyLtb (item hl i) (item hl b) then i else b) b)) =
        false := by
  induction xs generalizing b with
  | nil =>
    rintro i (rfl | hi)
    · exact keyLtb_irrefl _
    · cases hi
  | cons x xs ih =>
    intro i hi
    simp only [List.foldl_cons]
    by_cases hx : keyLtb (item hl x) (item hl b) = true
    · rw [if_pos hx]
      rcases hi with hib | hi
      · -- i = b: the fold result is minimal among {x} ∪ xs; b is above x.
        by_contra hcon
        rw [Bool.not_eq_false, hib] at hcon
        have hxr : keyLtb (item hl x)
            (item hl (xs.foldl (fun b i => if keyLtb (item hl i) (item hl b) then i else b) x)) =
            false := ih x x (Or.inl rfl)
        have hcontra := keyLtb_trans _ _ _ hx hcon
        rw [hcontra] at hxr
        cases hxr
      · rcases List.mem_cons.mp hi with hix | hi
        · exact ih x i (Or.inl hix)
        · exact ih x i (Or.inr hi)
    · rw [if_neg hx]
      rcases hi with hib | hi
      · exact ih b i (Or.inl hib)
      · rcases List.mem_cons.mp hi with hix | hi
        · -- i = x, not below b; the result is not above b either.
          by_contra hcon
          rw [Bool.not_eq_false, hix] at hcon
          have hbr := ih b b (Or.inl rfl)
          have hcontra := keyLtb_false_lt_trans _ _ _ (by simpa using hx) hcon
          rw [hcontra] at hbr
          cases hbr
        · exact ih b i (Or.inr hi)

theorem bestIdx_mem (hl : List Headline) (g : List Nat) (hg : g ≠ []) :
    bestIdx hl g ∈ g := by
  cases g with
  | nil => cases hg rfl
  | cons x xs =>
    rcases foldlMin_mem hl x xs with h | h
    · rw [bestIdx, h]
      exact List.mem_cons_self _ _
    · exact List.mem_cons_of_mem _ h

theorem bestIdx_min (hl : List Headline) (g : List Nat) :
    ∀ i ∈ g, keyLtb (item hl i) (item hl (bestIdx hl g)) = false := by
  cases g with
  | nil => intro i hi; cases hi
  | cons x xs =>
    intro i hi
    rcases List.mem_cons.mp hi with hix | hi
    · exact foldlMin_min hl xs x i (Or.inl hix)
    · exact foldlMin_min hl xs x i (Or.inr hi)

/-- One merge step preserves "everything seen lies in some merged group". -/
theorem mergeStep_cover (groups : List (Nat × List Nat))
    (st : List (List Nat) × List Nat) (pg : Nat × List Nat)
    (hst : ∀ k ∈ st.2, ∃ g ∈ st.1, k ∈ g) :
    ∀ k ∈ (mergeStep groups st pg).2, ∃ g ∈ (mergeStep groups st pg).1, k ∈ g := by
  intro k hk
  simp only [mergeStep] at hk ⊢
  by_cases h : pg.1 ∈ st.2
  · rw [if_pos h] at hk ⊢
    exact hst k hk
  · rw [if_neg h] at hk ⊢
    rcases List.mem_append.mp hk with hk | hk
    · obtain ⟨g, hg, hkg⟩ := hst k hk
      exact ⟨g, List.mem_append_left _ hg, hkg⟩
    · exact ⟨expandGroup groups pg.2,
        List.mem_append_right _ (List.mem_singleton_self _),
        List.mem_of_mem_filter hk⟩

theorem mergeFold_cover (groups l : List (Nat × List Nat))
    (st : List (List Nat) × List Nat)
    (hst : ∀ k ∈ st.2, ∃ g ∈ st.1, k ∈ g) :
    ∀ k ∈ (l.foldl (mergeStep groups) st).2,
      ∃ g ∈ (l.foldl (mergeStep groups) st).1, k ∈ g := by
  induction l generalizing st with
  | nil => exact hst
  | cons pg rest ih =>
    simp only [List.foldl_cons]
    exact ih (mergeStep groups st pg) (mergeStep_cover groups st pg hst)

theorem length_filter_mono {α : Type} (l : List α) (p q : α → Bool)
    (h : ∀ a, p a = true → q a = true) :
    (l.filter p).length ≤ (l.filter q).length := by
  induction l with
  | nil => simp
  | cons x xs ih =>
    by_cases hp : p x = true
    · rw [List.filter_cons_of_pos hp, List.filter_cons_of_pos (h x hp)]
      simpa using ih
    · rw [List.filter_cons_of_neg (by simpa using hp)]
      by_cases hq : q x = true
      · rw [List.filter_cons_of_pos hq]
        exact le_trans ih (by simp)
      · rw [List.filter_cons_of_neg (by simpa using hq)]
        exact ih

theorem length_filter_lt {α : Type} [DecidableEq α] (l : List α) (p q : α → Bool)
    (h : ∀ a, p a = true → q a = true) (a : α) (hal : a ∈ l)
    (hqa : q a = true) (hpa : p a = false) :
    (l.filter p).length < (l.filter q).length := by
  induction l with
  | nil => cases hal
  | cons x xs ih =>
    by_cases hax : x = a
    · subst hax
      rw [List.filter_cons_of_neg (by simp [hpa]), List.filter_cons_of_pos hqa]
      exact Nat.lt_succ_of_le (length_filter_mono xs p q h)
    · have hxs : a ∈ xs := by
        rcases List.mem_cons.mp hal with h1 | h1
        · cases hax h1.symm
        · exact h1
      by_cases hp : p x = true
      · rw [List.filter_cons_of_pos hp, List.filter_cons_of_pos (h x hp)]
        simpa using ih hxs
      · rw [List.filter_cons_of_neg (by simpa using hp)]
        by_cases hq : q x = true
        · rw [List.filter_cons_of_pos hq]
          exact Nat.lt_succ_of_lt (ih hxs)
        · rw [List.filter_cons_of_neg (by simpa using hq)]
          exact ih hxs

/-- Every `groups` entry contains its own key (entries start as `[i]` with
`i` the key and only ever grow by appends). -/
theorem buildGroups_self_mem (dups : List (Nat × Nat)) :
    ∀ e ∈ buildGroups dups, e.1 ∈ e.2 := by
  suffices h : ∀ acc : List (Nat × List Nat), (∀ e ∈ acc, e.1 ∈ e.2) →
      ∀ e ∈ dups.foldl addPair acc, e.1 ∈ e.2 by
    exact h [] (by simp)
  induction dups with
  | nil => exact fun acc hacc => hacc
  | cons p rest ih =>
    intro acc hacc
    simp only [List.foldl_cons]
    apply ih
    intro e he
    simp only [addPair] at he
    by_cases hf : ((acc.find? (fun g => g.1 = p.1)).isSome : Prop)
    · rw [if_pos hf] at he
      obtain ⟨g, hg, hge⟩ := List.mem_map.mp he
      by_cases hgp : g.1 = p.1
      · rw [if_pos hgp] at hge
        rw [← hge]
        exact List.mem_append_left _ (hacc g hg)
      · rw [if_neg hgp] at hge
        rw [← hge]
        exact hacc g hg
    · rw [if_neg hf] at he
      rcases List.mem_append.mp he with he | he
      · exact hacc e he
      · rw [List.mem_singleton.mp he]
        exact List.mem_cons_self _ _

/-- Keys of the `groups` dict satisfy any property holding of the first
components of the pairs. -/
theorem foldl_addPair_keys (P : Nat → Prop) :
    ∀ (l : List (Nat × Nat)) (acc : List (Nat × List Nat)),
      (∀ e ∈ acc, P e.1) → (∀ p ∈ l, P p.1) →
      ∀ e ∈ l.foldl addPair acc, P e.1 := by
  intro l
  induction l with
  | nil => exact fun acc hacc _ => hacc
  | cons p rest ih =>
    intro acc hacc hps
    simp only [List.foldl_cons]
    apply ih
    · intro e he
      simp only [addPair] at he
      by_cases hf : ((acc.find? (fun g => g.1 = p.1)).isSome : Prop)
      · rw [if_pos hf] at he
        obtain ⟨g, hg, hge⟩ := List.mem_map.mp he
        have h1 : e.1 = g.1 := by
          by_cases hgp : g.1 = p.1
          · rw [if_pos hgp] at hge
            rw [← hge]
          · rw [if_neg hgp] at hge
            rw [← hge]
        rw [h1]
        exact hacc g hg
      · rw [if_neg hf] at he
        rcases List.mem_append.mp he with he | he
        · exact hacc e he
        · rw [List.mem_singleton.mp he]
          exact hps p (List.mem_cons_self _ _)
    · exact fun q hq => hps q (List.mem_cons_of_mem _ hq)

theorem buildGroups_keys (dups : List (Nat × Nat)) (P : Nat → Prop)
    (hd : ∀ p ∈ dups, P p.1) :
    ∀ e ∈ buildGroups dups, P e.1 :=
  foldl_addPair_keys P dups [] (by simp) hd

/-- The merge fold cannot create more groups than fresh indices: the count
of merged groups plus the count of never-seen indices never exceeds `n`. -/
theorem mergeFold_len (groups : List (Nat × List Nat)) (n : Nat) :
    ∀ (l : List (Nat × List Nat)) (st : List (List Nat) × List Nat),
      (∀ e ∈ l, e.1 < n ∧ e.1 ∈ e.2) →
      st.1.length + ((List.range n).filter (fun k => k ∉ st.2)).length ≤ n →
      (l.foldl (mergeStep groups) st).1.length +
        ((List.range n).filter
          (fun k => k ∉ (l.foldl (mergeStep groups) st).2)).length ≤ n := by
  intro l
  induction l with
  | nil => exact fun st _ hst => hst
  | cons pg rest ih =>
    intro st hkeys hst
    simp only [List.foldl_cons]
    apply ih _ (fun e he => hkeys e (List.mem_cons_of_mem _ he))
    simp only [mergeStep]
    by_cases h : pg.1 ∈ st.2
    · rw [if_pos h]
      exact hst
    · rw [if_neg h]
      show (st.1 ++ [expandGroup groups pg.2]).length +
        ((List.range n).filter
          (fun k => k ∉ st.2 ++ (expandGroup groups pg.2).filter
            (fun x => x ∉ st.2))).length ≤ n
      have hpn : pg.1 < n := (hkeys pg (List.mem_cons_self _ _)).1
      have hpg : pg.1 ∈ pg.2 := (hkeys pg (List.mem_cons_self _ _)).2
      have hpe : pg.1 ∈ expandGroup groups pg.2 := by
        unfold expandGroup
        rw [dedupFirst_mem]
        exact List.mem_append_left _ hpg
      have hnew : pg.1 ∈ st.2 ++ (expandGroup groups pg.2).filter (fun x => x ∉ st.2) :=
        List.mem_append_right _ (List.mem_filter.mpr ⟨hpe, by simpa using h⟩)
      have hlt : ((List.range n).filter
            (fun k => k ∉ st.2 ++ (expandGroup groups pg.2).filter (fun x => x ∉ st.2))).length <
          ((List.range n).filter (fun k => k ∉ st.2)).length := by
        apply length_filter_lt (List.range n) _ _ ?_ pg.1 (List.mem_range.mpr hpn) ?_ ?_
        · intro a ha
          simp only [decide_eq_true_eq] at ha ⊢
          intro hmem
          exact ha (List.mem_append_left _ hmem)
        · simpa using h
        · simp only [decide_eq_false_iff_not, not_not]
          exact hnew
      rw [List.length_append, List.length_singleton]
      omega

/-- Every pair `find_duplicates` emits is a pair of in-range indices. -/
theorem findDuplicates_lt (simFn : String → String → Nat) (threshold : Nat)
    (hl : List Headline) :
    ∀ p ∈ findDuplicates simFn threshold hl,
      p.1 < hl.length ∧ p.2 < hl.length := by
  intro p hp
  simp only [findDuplicates, List.mem_flatMap, List.mem_filterMap,
    List.mem_filter, List.mem_range] at hp
  obtain ⟨i, hi, j, ⟨⟨hj, _⟩, hcond⟩⟩ := hp
  by_cases hb : linkb simFn threshold hl i j = true
  · rw [if_pos hb] at hcond
    cases hcond
    exact ⟨hi, hj⟩
  · rw [if_neg hb] at hcond
    cases hcond

/-- Every index of the batch lies in at least one produced group. -/
theorem mergedGroups_cover (simFn : String → String → Nat) (threshold : Nat)
    (hl : List Headline) :
    ∀ k, k < hl.length → ∃ g ∈ mergedGroups simFn threshold hl, k ∈ g := by
  intro k hk
  simp only [mergedGroups]
  by_cases hseen : k ∈ ((buildGroups (findDuplicates simFn threshold hl)).foldl
      (mergeStep (buildGroups (findDuplicates simFn threshold hl))) ([], [])).2
  · obtain ⟨g, hg, hkg⟩ := mergeFold_cover _ _ ([], []) (by simp) k hseen
    exact ⟨g, List.mem_append_left _ hg, hkg⟩
  · refine ⟨[k], List.mem_append_right _ ?_, List.mem_singleton_self _⟩
    exact List.mem_map.mpr
      ⟨k, List.mem_filter.mpr ⟨List.mem_range.mpr hk, by simpa using hseen⟩, rfl⟩

/-- The groups (merged plus singleton) never outnumber the input items. -/
theorem mergedGroups_length (simFn : String → String → Nat) (threshold : Nat)
    (hl : List Headline) :
    (mergedGroups simFn threshold hl).length ≤ hl.length := by
  simp only [mergedGroups]
  rw [List.length_append, List.length_map]
  apply mergeFold_len (buildGroups (findDuplicates simFn threshold hl)) hl.length
      (buildGroups (findDuplicates simFn threshold hl)) ([], [])
  · intro e he
    exact ⟨buildGroups_keys _ (fun k => k < hl.length)
        (fun p hp => (findDuplicates_lt simFn threshold hl p hp).1) e he,
      buildGroups_self_mem _ e he⟩
  · simp

theorem deduplicate_length (simFn : String → String → Nat) (threshold : Nat)
    (hl : List Headline) :
    (deduplicate simFn threshold hl).length ≤ hl.length := by
  simp only [deduplicate]
  rw [List.length_map]
  exact mergedGroups_length simFn threshold hl

theorem getLast?_of_all_eq {α : Type} (l : List α) (g : α) (hne : l ≠ [])
    (hall : ∀ x ∈ l, x = g) : l.getLast? = some g := by
  induction l with
  | nil => cases hne rfl
  | cons x xs ih =>
    cases xs with
    | nil =>
      rw [List.getLast?_singleton, hall x (List.mem_singleton_self x)]
    | cons y ys =>
      rw [List.getLast?_cons_cons]
      exact ih (by simp) (fun z hz => hall z (List.mem_cons_of_mem _ hz))

/-- When a representative represents only one sizeable group, the last (and
only) annotation writes that group's absorbed count. -/
theorem finalCount_of_unique (hl : List Headline) (mgs : List (List Nat))
    (g : List Nat) (hg : g ∈ mgs) (hlen : 1 < g.length)
    (huniq : ∀ g' ∈ mgs, bestIdx hl g' = bestIdx hl g → 1 < g'.length → g' = g) :
    finalCount hl mgs (bestIdx hl g) = some (g.length - 1) := by
  unfold finalCount
  have hmem : g ∈ mgs.filter
      (fun g' => decide (bestIdx hl g' = bestIdx hl g) && decide (1 < g'.length)) :=
    List.mem_filter.mpr ⟨hg, by simp [hlen]⟩
  have hall : ∀ x ∈ mgs.filter
      (fun g' => decide (bestIdx hl g' = bestIdx hl g) && decide (1 < g'.length)),
      x = g := by
    intro x hx
    obtain ⟨hx1, hx2⟩ := List.mem_filter.mp hx
    simp only [Bool.and_eq_true, decide_eq_true_eq] at hx2
    exact huniq x hx1 hx2.1 hx2.2
  rw [getLast?_of_all_eq _ g (List.ne_nil_of_mem hmem) hall]
  rfl

theorem annotate_of_unique (hl : List Headline) (mgs : List (List Nat))
    (g : List Nat) (hg : g ∈ mgs) (hlen : 1 < g.length)
    (huniq : ∀ g' ∈ mgs, bestIdx hl g' = bestIdx hl g → 1 < g'.length → g' = g) :
    (annotate hl mgs (bestIdx hl g)).dup_count = some (g.length - 1) ∧
      (annotate hl mgs (bestIdx hl g)).has_dups = true := by
  unfold annotate
  rw [finalCount_of_unique hl mgs g hg hlen huniq]
  exact ⟨rfl, rfl⟩

end BrkTrd.Dedup

namespace BrkTrd.Ingest

theorem processStep_none (db : List String) (st : PState) (it : Item)
    (hh : it.hash = none) :
    processStep db st it = { st with dups := st.dups + 1 } := by
  unfold processStep
  rw [hh]

theorem processStep_some (db : List String) (st : PState) (it : Item)
    (h : String) (hh : it.hash = some h) :
    processStep db st it =
      if h ∈ db ∨ h ∈ st.seen then { st with dups := st.dups + 1 }
      else { st with newItems := st.newItems ++ [it], seen := st.seen ++ [h] } := by
  unfold processStep
  rw [hh]

theorem processStep_seen_sub (db : List String) (st : PState) (it : Item) :
    st.seen ⊆ (processStep db st it).seen := by
  cases hh : it.hash with
  | none =>
    rw [processStep_none db st it hh]
    exact fun a ha => ha
  | some h =>
    rw [processStep_some db st it h hh]
    by_cases hc : h ∈ db ∨ h ∈ st.seen
    · rw [if_pos hc]
      exact fun a ha => ha
    · rw [if_neg hc]
      exact fun a ha => List.mem_append_left _ ha

theorem processFold_seen_sub (db : List String) (items : List Item) :
    ∀ st : PState, st.seen ⊆ (items.foldl (processStep db) st).seen := by
  induction items with
  | nil => exact fun st a ha => ha
  | cons x rest ih =>
    intro st
    simp only [List.foldl_cons]
    exact fun a ha => ih (processStep db st x) (processStep_seen_sub db st x ha)

/-- After the loop, every batch item's hash is persisted-known or recorded
in `seen`. -/
theorem processFold_covered (db : List String) :
    ∀ (items : List Item) (st : PState) (it : Item) (h : String),
      it ∈ items → it.hash = some h →
      h ∈ db ∨ h ∈ (items.foldl (processStep db) st).seen := by
  intro items
  induction items with
  | nil =>
    intro st it h hit
    cases hit
  | cons x rest ih =>
    intro st it h hit hh
    simp only [List.foldl_cons]
    rcases List.mem_cons.mp hit with hix | hmem
    · by_cases hdb : h ∈ db
      · exact Or.inl hdb
      · refine Or.inr (processFold_seen_sub db rest (processStep db st x) ?_)
        have hxh : x.hash = some h := hix ▸ hh
        rw [processStep_some db st x h hxh]
        by_cases hseen : h ∈ st.seen
        · rw [if_pos (Or.inr hseen)]
          exact hseen
        · rw [if_neg (by tauto)]
          exact List.mem_append_right _ (List.mem_singleton_self _)
    · exact ih (processStep db st x) it h hmem hh

/-- When every hash of the batch is already known, the loop persists
nothing and counts every item as a duplicate. -/
theorem processFold_all_known (db2 : List String) :
    ∀ (items : List Item) (st : PState),
      (∀ it ∈ items, ∀ h, it.hash = some h → h ∈ db2) →
      items.foldl (processStep db2) st = { st with dups := st.dups + items.length } := by
  intro items
  induction items with
  | nil =>
    intro st _
    rfl
  | cons x rest ih =>
    intro st hall
    simp only [List.foldl_cons, List.length_cons]
    have hx : processStep db2 st x = { st with dups := st.dups + 1 } := by
      cases hh : x.hash with
      | none => exact processStep_none db2 st x hh
      | some h =>
        rw [processStep_some db2 st x h hh,
          if_pos (Or.inl (hall x (List.mem_cons_self _ _) h hh))]
    rw [hx, ih _ (fun it hit h hh => hall it (List.mem_cons_of_mem _ hit) h hh)]
    have harith : st.dups + 1 + rest.length = st.dups + (rest.length + 1) := by omega
    rw [harith]

end BrkTrd.Ingest

/-! ## Claim theorems -/

/-- **C1.** The first half of the claim holds: with fewer than `limit`
timestamps in the trailing window, `acquire` records the current time and
returns immediately.  The second half is a code bug: at the limit the code
sleeps and then recursively re-enters `acquire` while the outer
`async with self.lock:` is still held; `asyncio.Lock` is not reentrant, so
the retry waits on the lock forever and `acquire` never returns — modelled
by `none` for every recursion fuel. -/
theorem C1_acquire_immediate_or_deadlock (fuel rate_limit : Nat) (window : Int)
    (calls : List Int) (now : Int) :
    ((BrkTrd.RateLimiter.prune window now calls).length < rate_limit →
      BrkTrd.RateLimiter.acquire (fuel + 1) false rate_limit window calls now =
        some (BrkTrd.RateLimiter.prune window now calls ++ [now])) ∧
    (rate_limit ≤ (BrkTrd.RateLimiter.prune window now calls).length →
      BrkTrd.RateLimiter.acquire fuel false rate_limit window calls now = none) :=
  ⟨BrkTrd.RateLimiter.acquire_below_limit fuel rate_limit window calls now,
   BrkTrd.RateLimiter.acquire_at_limit_deadlock fuel rate_limit window calls now⟩

/-- Witness for C1 at a concrete input: limit 1, window 60s.  A first call at
time 0 with empty history completes and records the call; a second call at
time 1 finds the window full and deadlocks (for fuel 5 — and the theorem
gives it for every fuel). -/
theorem C1_acquire_immediate_or_deadlock_witness :
    (BrkTrd.RateLimiter.acquire 5 false 1 60 [] 0 = some [0]) ∧
    (BrkTrd.RateLimiter.acquire 5 false 1 60 [0] 1 = none) :=
  ⟨by
    have h := (C1_acquire_immediate_or_deadlock 4 1 60 [] 0).1 (by decide)
    simpa using h,
   (C1_acquire_immediate_or_deadlock 5 1 60 [0] 1).2 (by decide)⟩

/-- **C5 counterexample.** An authorization failure — `raise_for_status`
raising `httpx.HTTPStatusError` with code 401, an `httpx.HTTPError`
instance — satisfies the decorator's retry predicate, so a permanently
failing fetch is attempted 3 times, not surfaced on the first attempt as
the claim states. -/
theorem C5_counterexample_auth_retried :
    BrkTrd.Retry.runRetry
        (fun _ => (Except.error (BrkTrd.Retry.PyExc.httpx
          (BrkTrd.Retry.HttpxErr.statusError 401)) : Except BrkTrd.Retry.PyExc Unit)) 3 =
      (Except.error (BrkTrd.Retry.PyExc.httpx (BrkTrd.Retry.HttpxErr.statusError 401)), 3) ∧
    BrkTrd.Retry.retryable
        (BrkTrd.Retry.PyExc.httpx (BrkTrd.Retry.HttpxErr.statusError 401)) = true := by
  constructor
  · rfl
  · rfl

/-- **C5 (amended).** The fetch makes at most 3 attempts with exponential
backoff clamped to [2s, 10s], and it retries on *every* httpx exception —
network errors, timeouts, and any HTTP status error, 4xx authorization
failures included; there is no transient/permanent distinction.  Only a
non-httpx exception is surfaced immediately without retry. -/
theorem C5_retry_policy (f : Nat → Except BrkTrd.Retry.PyExc (List Nat)) :
    (BrkTrd.Retry.runRetry f 3).2 ≤ 3 ∧
    (∀ e : BrkTrd.Retry.HttpxErr, f 1 = .error (.httpx e) →
      2 ≤ (BrkTrd.Retry.runRetry f 3).2) ∧
    (∀ e : BrkTrd.Retry.PyExc, BrkTrd.Retry.retryable e = false →
      f 1 = .error e → BrkTrd.Retry.runRetry f 3 = (.error e, 1)) ∧
    (∀ n : Nat, 2 ≤ BrkTrd.Retry.fetchWait n ∧ BrkTrd.Retry.fetchWait n ≤ 10) :=
  ⟨BrkTrd.Retry.runRetry_attempts_le f,
   fun e hf => BrkTrd.Retry.runRetry_httpx_retried f e hf,
   fun e he hf => BrkTrd.Retry.runRetry_not_retryable f e hf he,
   BrkTrd.Retry.fetchWait_bounds⟩

/-- Witness for C5: a timeout on attempt 1 followed by success is retried
(2 attempts); a non-httpx exception stops immediately. -/
theorem C5_retry_policy_witness :
    2 ≤ (BrkTrd.Retry.runRetry
          (fun k => if k = 1 then Except.error
              (BrkTrd.Retry.PyExc.httpx BrkTrd.Retry.HttpxErr.timeout)
            else Except.ok [7]) 3).2 ∧
    BrkTrd.Retry.runRetry
        (fun _ => (Except.error (BrkTrd.Retry.PyExc.other "boom") :
          Except BrkTrd.Retry.PyExc (List Nat))) 3 =
      (Except.error (BrkTrd.Retry.PyExc.other "boom"), 1) :=
  ⟨(C5_retry_policy _).2.1 BrkTrd.Retry.HttpxErr.timeout (by rfl),
   (C5_retry_policy _).2.2.1 (BrkTrd.Retry.PyExc.other "boom") (by rfl) (by rfl)⟩

/-- **C7 counterexample.** `json.loads` (default `parse_constant`) accepts
the float constant `NaN`; `isinstance(NaN, (int, float))` is True and both
`NaN < 0` and `NaN > 1` are False, so a response with confidence NaN
passes `_parse_model_response` — the parse returns a vote whose confidence
is *not* a number in [0, 1], falsifying the claim's only-if direction. -/
theorem C7_counterexample_nan_confidence :
    BrkTrd.Parse.parseModelResponse (.dict BrkTrd.Parse.nanFields) =
      .ok BrkTrd.Parse.nanVote ∧
    BrkTrd.Parse.nanVote.confidence = .nan ∧
    BrkTrd.Parse.isNumeric BrkTrd.Parse.JValue.nan = true ∧
    BrkTrd.Parse.numValueInUnit BrkTrd.Parse.JValue.nan = false :=
  ⟨rfl, rfl, rfl, rfl⟩

/-- **C7 (amended).** `_parse_model_response` returns a vote iff the
decoded response is an object whose sentiment is Python-`==` to -1, 0 or 1
(a finite number of that value, or either boolean), whose confidence
(default 0.5) passes the source's check — a finite number in [0, 1], a
boolean, **or the float NaN**, which is an `isinstance` float failing both
range comparisons — and whose horizon (default "same_day") is a string of
the fixed enumerated set; a returned vote's rationale is the text coercion
of the rationale field, at most 275 characters, truncated to 272
characters plus "..." when the original is longer; and a failed response
contributes an error entry while leaving the votes produced by the other
backends untouched. -/
theorem C7_parse_validation (r : BrkTrd.Parse.RawParsed) :
    ((∃ v, BrkTrd.Parse.parseModelResponse r = .ok v) ↔
      (∃ f, r = .dict f ∧
        ((∃ q : ℚ, BrkTrd.Parse.sentVal f = .num q ∧ (q = -1 ∨ q = 0 ∨ q = 1)) ∨
          (∃ b, BrkTrd.Parse.sentVal f = .boolean b)) ∧
        ((∃ q : ℚ, BrkTrd.Parse.confVal f = .num q ∧ 0 ≤ q ∧ q ≤ 1) ∨
          (∃ b, BrkTrd.Parse.confVal f = .boolean b) ∨
          BrkTrd.Parse.confVal f = .nan) ∧
        (∃ s, s ∈ BrkTrd.Parse.validHorizons ∧
          BrkTrd.Parse.horizonVal f = .str s))) ∧
    (∀ f v, BrkTrd.Parse.parseModelResponse (.dict f) = .ok v →
      v.rationale.length ≤ 275 ∧
      (275 < (BrkTrd.Parse.coerceText (f.rationale.getD (.str "".data))).length →
        v.rationale =
          (BrkTrd.Parse.coerceText (f.rationale.getD (.str "".data))).take 272 ++
            "...".data)) ∧
    (∀ (l₁ l₂ : List (String × Except String BrkTrd.Parse.Vote)) (m e : String),
      BrkTrd.Parse.processResults (l₁ ++ (m, .error e) :: l₂) =
        ((BrkTrd.Parse.processResults l₁).1 ++ (BrkTrd.Parse.processResults l₂).1,
         (BrkTrd.Parse.processResults l₁).2 ++ (m, e) ::
           (BrkTrd.Parse.processResults l₂).2)) := by
  refine ⟨?_, ?_, ?_⟩
  · rw [BrkTrd.Parse.parse_ok_iff r]
    constructor
    · rintro ⟨f, rfl, hs, hc, hh⟩
      exact ⟨f, rfl, (BrkTrd.Parse.sentimentOK_iff f).mp hs,
        (BrkTrd.Parse.confidenceOK_iff f).mp hc,
        (BrkTrd.Parse.horizonOK_iff f).mp hh⟩
    · rintro ⟨f, rfl, hsent, hconf, hhor⟩
      exact ⟨f, rfl, (BrkTrd.Parse.sentimentOK_iff f).mpr hsent,
        (BrkTrd.Parse.confidenceOK_iff f).mpr hconf,
        (BrkTrd.Parse.horizonOK_iff f).mpr hhor⟩
  · intro f v hv
    have hr := BrkTrd.Parse.parse_rationale f v hv
    refine ⟨hr ▸ BrkTrd.Parse.truncateRationale_length _, fun hlong => ?_⟩
    rw [hr]
    unfold BrkTrd.Parse.truncateRationale
    rw [if_pos hlong]
  · exact fun l₁ l₂ m e => BrkTrd.Parse.processResults_isolation l₁ l₂ m e

/-- Witness for C7: a concrete response with sentiment 1, confidence 0.9,
horizon "<1h" and a 300-character rationale parses to a vote whose
rationale is 272 characters plus an ellipsis, within the 275 cap. -/
theorem C7_parse_validation_witness :
    BrkTrd.Parse.parseModelResponse (.dict BrkTrd.Parse.sampleFields) =
      .ok BrkTrd.Parse.sampleVote ∧
    BrkTrd.Parse.sampleVote.rationale.length ≤ 275 := by
  have hs : BrkTrd.Parse.sentimentOK BrkTrd.Parse.sampleFields = true := by
    norm_num [BrkTrd.Parse.sentimentOK, BrkTrd.Parse.sentVal, BrkTrd.Parse.sampleFields,
      BrkTrd.Parse.pyEqInt, Bool.or_eq_true]
  have hc : BrkTrd.Parse.confidenceOK BrkTrd.Parse.sampleFields = true := by
    norm_num [BrkTrd.Parse.confidenceOK, BrkTrd.Parse.confVal, BrkTrd.Parse.sampleFields,
      BrkTrd.Parse.isNumeric, BrkTrd.Parse.ltZero, BrkTrd.Parse.gtOne, Bool.and_eq_true]
  have hh : BrkTrd.Parse.horizonOK BrkTrd.Parse.sampleFields = true := by decide
  have hrat : BrkTrd.Parse.truncateRationale (List.replicate 300 'a') =
      List.replicate 272 'a' ++ "...".data := by
    unfold BrkTrd.Parse.truncateRationale
    rw [if_pos (by rw [List.length_replicate]; norm_num), List.take_replicate]
    norm_num
  have h : BrkTrd.Parse.parseModelResponse (.dict BrkTrd.Parse.sampleFields) =
      .ok BrkTrd.Parse.sampleVote := by
    simp only [BrkTrd.Parse.parseModelResponse]
    rw [if_neg (by simp [hs]), if_neg (by simp [hc]), if_neg (by simp [hh])]
    refine congrArg Except.ok ?_
    simp only [BrkTrd.Parse.sampleFields, BrkTrd.Parse.sampleVote, BrkTrd.Parse.sentVal,
      BrkTrd.Parse.confVal, BrkTrd.Parse.horizonVal, BrkTrd.Parse.coerceText,
      Option.getD_some]
    rw [hrat]
  exact ⟨h, ((C7_parse_validation (.dict BrkTrd.Parse.sampleFields)).2.1
      BrkTrd.Parse.sampleFields BrkTrd.Parse.sampleVote h).1⟩

/-- **C8.** For every non-empty vote list, `_aggregate_sentiments` returns a
consensus whose majority direction is the sign of the sum of directions
(sum 0 — e.g. votes [1, -1] — maps to 0), whose modal horizon is the first
horizon label in first-occurrence order attaining the maximal occurrence
count (stable `sorted` breaks `most_common` ties by first occurrence),
whose dispersion is 0 when there is a single vote (squared dispersion 0;
`np.std = 0` iff its square is), and whose vote count is the number of
votes. -/
theorem C8_aggregate_consensus (rs : List BrkTrd.Agg.VoteR) (hne : rs ≠ []) :
    ∃ agg, BrkTrd.Agg.aggregate rs = some agg ∧
      agg.majority_vote = Int.sign (BrkTrd.Agg.sumSent rs) ∧
      agg.horizon_vote =
        ((BrkTrd.Agg.counterPairs (rs.map (fun r => r.horizon))).find?
          (fun p => p.2 = BrkTrd.Agg.maxCount
            (BrkTrd.Agg.counterPairs (rs.map (fun r => r.horizon))))).map
          (fun p => p.1) ∧
      (rs.length = 1 → agg.dispersion_sq = 0) ∧
      agg.num_models = rs.length := by
  refine ⟨⟨BrkTrd.Agg.pyRound3 (BrkTrd.Agg.avgSentiment rs),
      BrkTrd.Agg.pyRound3 (BrkTrd.Agg.avgConfidence rs),
      BrkTrd.Agg.dispersionSq rs,
      BrkTrd.Agg.majorityVote rs,
      BrkTrd.Agg.horizonVote rs,
      rs.length,
      rs.map (fun r =>
        (r.provider ++ ":" ++ r.name, r.sentiment, r.confidence, r.horizon))⟩,
    ?_, ?_, ?_, ?_, rfl⟩
  · unfold BrkTrd.Agg.aggregate
    rw [if_neg (by simp [hne])]
  · exact BrkTrd.Agg.majorityVote_eq_sign rs
  · show BrkTrd.Agg.horizonVote rs = _
    unfold BrkTrd.Agg.horizonVote BrkTrd.Agg.mostCommonTop
    rw [BrkTrd.Agg.sortDesc_head]
  · exact fun h => BrkTrd.Agg.dispersionSq_single rs h

/-- Witness for C8: the spec's tie example — votes [1, -1] with horizons
"<1h" then "24h" (a count tie) — yields majority 0, modal horizon "<1h"
(first occurrence), and 2 models. -/
theorem C8_aggregate_consensus_witness :
    (BrkTrd.Agg.aggregate BrkTrd.Agg.sampleVotes).map
        (fun a => (a.majority_vote, a.horizon_vote, a.num_models)) =
      some (0, some "<1h".data, 2) := by
  obtain ⟨agg, ha, hm, hh, _, hn⟩ :=
    C8_aggregate_consensus BrkTrd.Agg.sampleVotes (by simp [BrkTrd.Agg.sampleVotes])
  rw [ha, Option.map_some']
  have h1 : agg.majority_vote = 0 := by rw [hm]; rfl
  have h2 : agg.horizon_vote = some "<1h".data := by rw [hh]; rfl
  have h3 : agg.num_models = 2 := by rw [hn]; rfl
  rw [h1, h2, h3]

/-- **C2 counterexample.** Three same-ticker headlines where items 0 and 1
are each linked to item 2 (similarity 85) but not to each other (70): the
connected component is {0, 1, 2}, yet `deduplicate` produces the two
*overlapping* groups [0, 2] and [1, 2] — item 2 belongs to two groups, so
the groups neither realise the transitive closure nor partition the
batch. -/
theorem C2_counterexample_overlap :
    BrkTrd.Dedup.mergedGroups BrkTrd.Dedup.simC2 85 BrkTrd.Dedup.hlC2 = [[0, 2], [1, 2]] ∧
    BrkTrd.Dedup.linkb BrkTrd.Dedup.simC2 85 BrkTrd.Dedup.hlC2 0 2 = true ∧
    BrkTrd.Dedup.linkb BrkTrd.Dedup.simC2 85 BrkTrd.Dedup.hlC2 1 2 = true ∧
    BrkTrd.Dedup.linkb BrkTrd.Dedup.simC2 85 BrkTrd.Dedup.hlC2 0 1 = false :=
  ⟨by decide, by decide, by decide, by decide⟩

/-- **C2 (amended).** `deduplicate` builds its groups by a *single* level of
expansion of the per-primary adjacency lists, not by connected components:
every item of the batch belongs to at least one group (groups cover the
batch), but an item linked to two primaries that are not linked to each
other lands in both their groups, so the groups may overlap and items
joined only through longer chains may be split across groups. -/
theorem C2_groups_cover (simFn : String → String → Nat) (threshold : Nat)
    (hl : List BrkTrd.Dedup.Headline) :
    ∀ k, k < hl.length →
      ∃ g ∈ BrkTrd.Dedup.mergedGroups simFn threshold hl, k ∈ g :=
  BrkTrd.Dedup.mergedGroups_cover simFn threshold hl

/-- Witness for C2 at the concrete batch: item 1 is covered by a group. -/
theorem C2_groups_cover_witness :
    1 < BrkTrd.Dedup.hlC2.length ∧
    ∃ g ∈ BrkTrd.Dedup.mergedGroups BrkTrd.Dedup.simC2 85 BrkTrd.Dedup.hlC2, 1 ∈ g :=
  ⟨by decide, C2_groups_cover BrkTrd.Dedup.simC2 85 BrkTrd.Dedup.hlC2 1 (by decide)⟩

/-- **C3 counterexample.** Five same-ticker headlines producing the
overlapping groups [0, 2, 4] and [1, 2], both represented by the primary
item 2.  `best["duplicate_count"] = len(group) - 1` mutates the shared
dict, so the second write (count 1) overwrites the first (count 2): the
representative of the size-3 group [0, 2, 4] ends up carrying
duplicate_count 1 ≠ 3 - 1 in the returned list. -/
theorem C3_counterexample_aliased_count :
    BrkTrd.Dedup.mergedGroups BrkTrd.Dedup.simC3 85 BrkTrd.Dedup.hlC3 =
      [[0, 2, 4], [1, 2], [3]] ∧
    BrkTrd.Dedup.bestIdx BrkTrd.Dedup.hlC3 [0, 2, 4] = 2 ∧
    BrkTrd.Dedup.bestIdx BrkTrd.Dedup.hlC3 [1, 2] = 2 ∧
    (BrkTrd.Dedup.deduplicate BrkTrd.Dedup.simC3 85 BrkTrd.Dedup.hlC3).map
      (fun h => h.dup_count) = [some 1, some 1, none] :=
  ⟨by decide, by decide, by decide, by decide⟩

/-- **C3 (amended).** The output never has more elements than the input;
each group's representative is a member of the group minimal under the
(authoritative-source-first, earliest-timestamp) key — the stable sort's
first element; and the representative carries
`duplicate_count = group size - 1` whenever it represents no *other*
sizeable group — when groups overlap and share a representative, the last
group's annotation overwrites the earlier one (the dicts are shared by
reference). -/
theorem C3_representative_and_count (simFn : String → String → Nat)
    (threshold : Nat) (hl : List BrkTrd.Dedup.Headline) :
    (BrkTrd.Dedup.deduplicate simFn threshold hl).length ≤ hl.length ∧
    (∀ g ∈ BrkTrd.Dedup.mergedGroups simFn threshold hl, g ≠ [] →
      BrkTrd.Dedup.bestIdx hl g ∈ g ∧
      ∀ i ∈ g, BrkTrd.Dedup.keyLtb (BrkTrd.Dedup.item hl i)
        (BrkTrd.Dedup.item hl (BrkTrd.Dedup.bestIdx hl g)) = false) ∧
    (∀ g ∈ BrkTrd.Dedup.mergedGroups simFn threshold hl, 1 < g.length →
      (∀ g' ∈ BrkTrd.Dedup.mergedGroups simFn threshold hl,
        BrkTrd.Dedup.bestIdx hl g' = BrkTrd.Dedup.bestIdx hl g →
          1 < g'.length → g' = g) →
      (BrkTrd.Dedup.annotate hl (BrkTrd.Dedup.mergedGroups simFn threshold hl)
          (BrkTrd.Dedup.bestIdx hl g)).dup_count = some (g.length - 1) ∧
      (BrkTrd.Dedup.annotate hl (BrkTrd.Dedup.mergedGroups simFn threshold hl)
          (BrkTrd.Dedup.bestIdx hl g)).has_dups = true) :=
  ⟨BrkTrd.Dedup.deduplicate_length simFn threshold hl,
   fun g _ hne => ⟨BrkTrd.Dedup.bestIdx_mem hl g hne, BrkTrd.Dedup.bestIdx_min hl g⟩,
   fun g hg hlen huniq => BrkTrd.Dedup.annotate_of_unique hl _ g hg hlen huniq⟩

/-- Witness for C3 at a batch whose groups are disjoint: the group [0, 2]
keeps its minimum-key member and its representative carries count 1 = 2-1. -/
theorem C3_representative_and_count_witness :
    BrkTrd.Dedup.bestIdx BrkTrd.Dedup.hlC2 [0, 2] ∈ ([0, 2] : List Nat) ∧
    (BrkTrd.Dedup.annotate BrkTrd.Dedup.hlC2
        (BrkTrd.Dedup.mergedGroups BrkTrd.Dedup.simC2 85 BrkTrd.Dedup.hlC2)
        (BrkTrd.Dedup.bestIdx BrkTrd.Dedup.hlC2 [0, 2])).dup_count = some 1 ∧
    (BrkTrd.Dedup.deduplicate BrkTrd.Dedup.simC2 85 BrkTrd.Dedup.hlC2).length ≤
      BrkTrd.Dedup.hlC2.length := by
  have h := C3_representative_and_count BrkTrd.Dedup.simC2 85 BrkTrd.Dedup.hlC2
  refine ⟨?_, ?_, h.1⟩
  · exact (h.2.1 [0, 2] (by decide) (by decide)).1
  · have h2 := (h.2.2 [0, 2] (by decide) (by decide) (by decide)).1
    simpa using h2

/-- **C4 counterexample.** A single source whose fetch fails: the per-source
pass catches the exception and *returns* an error dict, so the
`as_completed` loop counts no exception — the overall status is
"completed" with errors = 0, although a source errored.  The claim says a
fetch failure must yield overall status "partial". -/
theorem C4_counterexample_fetch_error_completed :
    (BrkTrd.Ingest.ingestPortfolios true (fun l => l) []
        [⟨none, .raises "HTTPStatusError", .ok⟩]).status = "completed" ∧
    (BrkTrd.Ingest.ingestPortfolios true (fun l => l) []
        [⟨none, .raises "HTTPStatusError", .ok⟩]).errors = 0 ∧
    (BrkTrd.Ingest.ingestPortfolios true (fun l => l) []
        [⟨none, .raises "HTTPStatusError", .ok⟩]).details =
      [{ status := "error", error := some "HTTPStatusError" }] :=
  ⟨rfl, rfl, rfl⟩

/-- **C4 (amended).** With the flag enabled and a non-empty source list the
top-level call never raises and always returns a structured result with an
error tally, but the tally counts only *raised* worker exceptions (e.g. a
persistence failure): overall status is "completed" exactly when no worker
raised.  A source whose fetch failed is captured as a per-source "error"
detail dict, does not raise, and therefore leaves the overall status
"completed". -/
theorem C4_overall_status (dedupeFn : List BrkTrd.Ingest.Item → List BrkTrd.Ingest.Item)
    (db : List String) (targets : List BrkTrd.Ingest.Scene) (hne : targets ≠ []) :
    (BrkTrd.Ingest.ingestPortfolios true dedupeFn db targets).status =
      (if (BrkTrd.Ingest.ingestPortfolios true dedupeFn db targets).errors = 0
        then "completed" else "partial") ∧
    (BrkTrd.Ingest.ingestPortfolios true dedupeFn db targets).errors =
      ((targets.map (fun sc => (BrkTrd.Ingest.ingestSingle dedupeFn db sc).2)).filter
        BrkTrd.Ingest.isErr).length ∧
    (∀ m : String,
      (BrkTrd.Ingest.ingestSingle dedupeFn db ⟨none, .raises m, .ok⟩).2 =
        .ok { status := "error", error := some m }) ∧
    (∀ m : String,
      BrkTrd.Ingest.isErr
        (BrkTrd.Ingest.ingestSingle dedupeFn db ⟨none, .raises m, .ok⟩).2 = false) := by
  have htne : targets.isEmpty = false := by
    cases targets with
    | nil => exact absurd rfl hne
    | cons x xs => rfl
  refine ⟨?_, ?_, ?_, ?_⟩
  · simp only [BrkTrd.Ingest.ingestPortfolios]
    rw [if_neg (by simp), if_neg (by simp [htne])]
  · simp only [BrkTrd.Ingest.ingestPortfolios]
    rw [if_neg (by simp), if_neg (by simp [htne])]
  · intro m
    simp only [BrkTrd.Ingest.ingestSingle, BrkTrd.Ingest.lockPhase]
    rw [if_neg (by simp)]
  · intro m
    simp only [BrkTrd.Ingest.ingestSingle, BrkTrd.Ingest.lockPhase]
    rw [if_neg (by simp)]
    rfl

/-- Witness for C4: one source with an empty (but successful) fetch; no
worker raises, so the status is "completed". -/
theorem C4_overall_status_witness :
    (BrkTrd.Ingest.ingestPortfolios true (fun l => l) []
        [⟨none, BrkTrd.Ingest.FetchOutcome.ok [], BrkTrd.Ingest.PersistOutcome.ok⟩]).status =
      "completed" := by
  have h := C4_overall_status (fun l => l) []
      [⟨none, BrkTrd.Ingest.FetchOutcome.ok [], BrkTrd.Ingest.PersistOutcome.ok⟩]
      (by simp)
  rw [h.1, show (BrkTrd.Ingest.ingestPortfolios true (fun l => l) []
      [⟨none, BrkTrd.Ingest.FetchOutcome.ok [], BrkTrd.Ingest.PersistOutcome.ok⟩]).errors = 0
    from rfl]
  rfl

/-- **C6 counterexample.** A fully successful locked pass: the trace shows
the lock released (position 3) immediately after the fetch and *before*
deduplication, the hash lookup, the persist (position 6) and the cache
invalidation — not at step 7 as the claim states.  The release lives in the
`finally` of the fetch try-block alone. -/
theorem C6_counterexample_release_before_persist :
    (BrkTrd.Ingest.ingestSingle (fun l => l) []
        ⟨some ⟨some .acquired⟩, .ok [⟨some "h1", "AAPL"⟩], .ok⟩).1 =
      [.lockAttempt, .lockAcquired, .fetchCall, .lockReleased, .dedupe,
       .hashLookup, .persistCall, .cacheInvalidate, .report] ∧
    ((BrkTrd.Ingest.ingestSingle (fun l => l) []
        ⟨some ⟨some .acquired⟩, .ok [⟨some "h1", "AAPL"⟩], .ok⟩).1).indexOf
      BrkTrd.Ingest.Event.lockReleased <
    ((BrkTrd.Ingest.ingestSingle (fun l => l) []
        ⟨some ⟨some .acquired⟩, .ok [⟨some "h1", "AAPL"⟩], .ok⟩).1).indexOf
      BrkTrd.Ingest.Event.persistCall :=
  ⟨rfl, by decide⟩

/-- **C6 (amended).** Once acquired, the lock is always released, exactly
once, via the guaranteed-release `finally` — but immediately after the
fetch completes or fails (the first four events are always
lock-attempt, lock-acquired, fetch, lock-release), i.e. *before*
deduplication, the hash lookup, the persist and the cache invalidation;
the remaining steps still run strictly in that order after the release. -/
theorem C6_lock_released_after_fetch
    (dedupeFn : List BrkTrd.Ingest.Item → List BrkTrd.Ingest.Item)
    (db : List String) (fo : BrkTrd.Ingest.FetchOutcome)
    (po : BrkTrd.Ingest.PersistOutcome) :
    ((BrkTrd.Ingest.ingestSingle dedupeFn db ⟨some ⟨some .acquired⟩, fo, po⟩).1).take 4 =
      [.lockAttempt, .lockAcquired, .fetchCall, .lockReleased] ∧
    ((BrkTrd.Ingest.ingestSingle dedupeFn db ⟨some ⟨some .acquired⟩, fo, po⟩).1).count
      BrkTrd.Ingest.Event.lockReleased = 1 ∧
    ((BrkTrd.Ingest.ingestSingle dedupeFn db ⟨some ⟨some .acquired⟩, fo, po⟩).1).drop 4 ∈
      [([] : List BrkTrd.Ingest.Event), [.report],
       [.dedupe, .hashLookup, .persistCall, .cacheInvalidate],
       [.dedupe, .hashLookup, .persistCall, .cacheInvalidate, .report]] := by
  cases fo with
  | raises m =>
    have htr : (BrkTrd.Ingest.ingestSingle dedupeFn db
        ⟨some ⟨some .acquired⟩, .raises m, po⟩).1 =
        [.lockAttempt, .lockAcquired, .fetchCall, .lockReleased] := by
      simp [BrkTrd.Ingest.ingestSingle, BrkTrd.Ingest.lockPhase]
    rw [htr]
    decide
  | ok its =>
    cases hie : its.isEmpty with
    | true =>
      have htr : (BrkTrd.Ingest.ingestSingle dedupeFn db
          ⟨some ⟨some .acquired⟩, .ok its, po⟩).1 =
          [.lockAttempt, .lockAcquired, .fetchCall, .lockReleased, .report] := by
        simp [BrkTrd.Ingest.ingestSingle, BrkTrd.Ingest.lockPhase, hie]
      rw [htr]
      decide
    | false =>
      cases po with
      | raises m =>
        have htr : (BrkTrd.Ingest.ingestSingle dedupeFn db
            ⟨some ⟨some .acquired⟩, .ok its, .raises m⟩).1 =
            [.lockAttempt, .lockAcquired, .fetchCall, .lockReleased, .dedupe,
             .hashLookup, .persistCall, .cacheInvalidate] := by
          simp [BrkTrd.Ingest.ingestSingle, BrkTrd.Ingest.lockPhase, hie]
        rw [htr]
        decide
      | ok =>
        have htr : (BrkTrd.Ingest.ingestSingle dedupeFn db
            ⟨some ⟨some .acquired⟩, .ok its, .ok⟩).1 =
            [.lockAttempt, .lockAcquired, .fetchCall, .lockReleased, .dedupe,
             .hashLookup, .persistCall, .cacheInvalidate, .report] := by
          simp [BrkTrd.Ingest.ingestSingle, BrkTrd.Ingest.lockPhase, hie]
        rw [htr]
        decide

/-- Witness for C6: a locked pass whose fetch raises still releases the
lock right after the fetch. -/
theorem C6_lock_released_after_fetch_witness :
    ((BrkTrd.Ingest.ingestSingle (fun l => l) []
        ⟨some ⟨some .acquired⟩, .raises "ConnectError", .ok⟩).1).take 4 =
      [.lockAttempt, .lockAcquired, .fetchCall, .lockReleased] ∧
    ((BrkTrd.Ingest.ingestSingle (fun l => l) []
        ⟨some ⟨some .acquired⟩, .raises "ConnectError", .ok⟩).1).count
      BrkTrd.Ingest.Event.lockReleased = 1 :=
  ⟨(C6_lock_released_after_fetch (fun l => l) [] (.raises "ConnectError") .ok).1,
   (C6_lock_released_after_fetch (fun l => l) [] (.raises "ConnectError") .ok).2.1⟩

/-- **C9.** Idempotent persistence: an item whose hash is already persisted
or already seen earlier in the batch is dropped and counted as a duplicate
(first conjunct); a run over a fetched batch persists exactly the
first-occurrence fresh hashes (second conjunct); and re-running with the
unchanged payload against the grown hash set persists exactly 0 items,
counting the whole deduplicated batch as duplicates (third conjunct). -/
theorem C9_ingest_idempotent
    (dedupeFn : List BrkTrd.Ingest.Item → List BrkTrd.Ingest.Item)
    (db : List String) (items : List BrkTrd.Ingest.Item) (hne : items ≠ []) :
    (∀ (db' : List String) (st : BrkTrd.Ingest.PState) (it : BrkTrd.Ingest.Item)
      (h : String), it.hash = some h → (h ∈ db' ∨ h ∈ st.seen) →
      BrkTrd.Ingest.processStep db' st it = { st with dups := st.dups + 1 }) ∧
    (BrkTrd.Ingest.ingestSingle dedupeFn db ⟨none, .ok items, .ok⟩).2 =
      .ok { status := "success", fetched := items.length,
            persisted := (BrkTrd.Ingest.processItems db (dedupeFn items)).newItems.length,
            duplicates := (BrkTrd.Ingest.processItems db (dedupeFn items)).dups } ∧
    (BrkTrd.Ingest.ingestSingle dedupeFn (BrkTrd.Ingest.dbAfter dedupeFn db items)
        ⟨none, .ok items, .ok⟩).2 =
      .ok { status := "success", fetched := items.length,
            persisted := 0, duplicates := (dedupeFn items).length } := by
  have hie : items.isEmpty = false := by
    cases items with
    | nil => exact absurd rfl hne
    | cons x xs => rfl
  refine ⟨?_, ?_, ?_⟩
  · intro db' st it h hh hc
    rw [BrkTrd.Ingest.processStep_some db' st it h hh, if_pos hc]
  · simp only [BrkTrd.Ingest.ingestSingle, BrkTrd.Ingest.lockPhase]
    rw [if_neg (by simp)]
    simp [hie]
  · have hall : ∀ it ∈ dedupeFn items, ∀ h, it.hash = some h →
        h ∈ BrkTrd.Ingest.dbAfter dedupeFn db items := by
      intro it hit h hh
      rcases BrkTrd.Ingest.processFold_covered db (dedupeFn items) ⟨[], [], 0⟩ it h hit hh
        with hdb | hseen
      · exact List.mem_append_left _ hdb
      · exact List.mem_append_right _ hseen
    have hzero := BrkTrd.Ingest.processFold_all_known
        (BrkTrd.Ingest.dbAfter dedupeFn db items) (dedupeFn items) ⟨[], [], 0⟩ hall
    simp only [BrkTrd.Ingest.ingestSingle, BrkTrd.Ingest.lockPhase]
    rw [if_neg (by simp)]
    simp [hie, BrkTrd.Ingest.processItems, hzero]

/-- Witness for C9: a two-item batch against an empty store persists both
items; the re-run against the grown store persists none. -/
theorem C9_ingest_idempotent_witness :
    (BrkTrd.Ingest.ingestSingle (fun l => l) []
        ⟨none, .ok [⟨some "h1", "A"⟩, ⟨some "h2", "A"⟩], .ok⟩).2 =
      .ok { status := "success", fetched := 2, persisted := 2, duplicates := 0 } ∧
    (BrkTrd.Ingest.ingestSingle (fun l => l)
        (BrkTrd.Ingest.dbAfter (fun l => l) [] [⟨some "h1", "A"⟩, ⟨some "h2", "A"⟩])
        ⟨none, .ok [⟨some "h1", "A"⟩, ⟨some "h2", "A"⟩], .ok⟩).2 =
      .ok { status := "success", fetched := 2, persisted := 0, duplicates := 2 } := by
  have h := C9_ingest_idempotent (fun l => l) [] [⟨some "h1", "A"⟩, ⟨some "h2", "A"⟩]
    (by simp)
  constructor
  · rw [h.2.1]
    rfl
  · rw [h.2.2]
    rfl

/-- **C10.** When a cache manager is supplied but the lock is not obtained —
no redis handle, the key already held, or the lock write raising — the pass
returns status "skipped" with reason lock_not_acquired and zero counts, and
the fetch is never invoked; only when no cache manager is supplied does the
pipeline proceed without any locking (no lock write at all) straight to the
fetch. -/
theorem C10_lock_gate
    (dedupeFn : List BrkTrd.Ingest.Item → List BrkTrd.Ingest.Item)
    (db : List String) :
    (∀ (fo : BrkTrd.Ingest.FetchOutcome) (po : BrkTrd.Ingest.PersistOutcome)
      (r : Option BrkTrd.Ingest.LockSet),
      (r = none ∨ r = some .held ∨ r = some .raises) →
      (BrkTrd.Ingest.ingestSingle dedupeFn db ⟨some ⟨r⟩, fo, po⟩).2 =
        .ok { status := "skipped", reason := some "lock_not_acquired" } ∧
      BrkTrd.Ingest.Event.fetchCall ∉
        (BrkTrd.Ingest.ingestSingle dedupeFn db ⟨some ⟨r⟩, fo, po⟩).1) ∧
    (∀ (fo : BrkTrd.Ingest.FetchOutcome) (po : BrkTrd.Ingest.PersistOutcome),
      BrkTrd.Ingest.Event.lockAttempt ∉
        (BrkTrd.Ingest.ingestSingle dedupeFn db ⟨none, fo, po⟩).1 ∧
      BrkTrd.Ingest.Event.lockAcquired ∉
        (BrkTrd.Ingest.ingestSingle dedupeFn db ⟨none, fo, po⟩).1 ∧
      BrkTrd.Ingest.Event.fetchCall ∈
        (BrkTrd.Ingest.ingestSingle dedupeFn db ⟨none, fo, po⟩).1) := by
  constructor
  · intro fo po r hr
    rcases hr with rfl | rfl | rfl
    · constructor
      · simp only [BrkTrd.Ingest.ingestSingle, BrkTrd.Ingest.lockPhase]
        rw [if_pos (by simp)]
      · simp only [BrkTrd.Ingest.ingestSingle, BrkTrd.Ingest.lockPhase]
        rw [if_pos (by simp)]
        simp
    · constructor
      · simp only [BrkTrd.Ingest.ingestSingle, BrkTrd.Ingest.lockPhase]
        rw [if_pos (by simp)]
      · simp only [BrkTrd.Ingest.ingestSingle, BrkTrd.Ingest.lockPhase]
        rw [if_pos (by simp)]
        simp
    · constructor
      · simp only [BrkTrd.Ingest.ingestSingle, BrkTrd.Ingest.lockPhase]
        rw [if_pos (by simp)]
      · simp only [BrkTrd.Ingest.ingestSingle, BrkTrd.Ingest.lockPhase]
        rw [if_pos (by simp)]
        simp
  · intro fo po
    cases fo with
    | raises m =>
      refine ⟨?_, ?_, ?_⟩ <;>
        · have htr : (BrkTrd.Ingest.ingestSingle dedupeFn db ⟨none, .raises m, po⟩).1 =
              [.fetchCall] := by
            simp [BrkTrd.Ingest.ingestSingle, BrkTrd.Ingest.lockPhase]
          rw [htr]
          decide
    | ok its =>
      cases hie : its.isEmpty with
      | true =>
        refine ⟨?_, ?_, ?_⟩ <;>
          · have htr : (BrkTrd.Ingest.ingestSingle dedupeFn db ⟨none, .ok its, po⟩).1 =
                [.fetchCall, .report] := by
              simp [BrkTrd.Ingest.ingestSingle, BrkTrd.Ingest.lockPhase, hie]
            rw [htr]
            decide
      | false =>
        cases po with
        | raises m =>
          refine ⟨?_, ?_, ?_⟩ <;>
            · have htr : (BrkTrd.Ingest.ingestSingle dedupeFn db
                  ⟨none, .ok its, .raises m⟩).1 =
                  [.fetchCall, .dedupe, .hashLookup, .persistCall, .cacheInvalidate] := by
                simp [BrkTrd.Ingest.ingestSingle, BrkTrd.Ingest.lockPhase, hie]
              rw [htr]
              decide
        | ok =>
          refine ⟨?_, ?_, ?_⟩ <;>
            · have htr : (BrkTrd.Ingest.ingestSingle dedupeFn db
                  ⟨none, .ok its, .ok⟩).1 =
                  [.fetchCall, .dedupe, .hashLookup, .persistCall,
                   .cacheInvalidate, .report] := by
                simp [BrkTrd.Ingest.ingestSingle, BrkTrd.Ingest.lockPhase, hie]
              rw [htr]
              decide

/-- Witness for C10: an already-held lock skips the pass without fetching;
no cache manager proceeds to fetch without any lock event. -/
theorem C10_lock_gate_witness :
    (BrkTrd.Ingest.ingestSingle (fun l => l) []
        ⟨some ⟨some .held⟩, .ok [], .ok⟩).2 =
      .ok { status := "skipped", reason := some "lock_not_acquired" } ∧
    BrkTrd.Ingest.Event.fetchCall ∉
      (BrkTrd.Ingest.ingestSingle (fun l => l) [] ⟨some ⟨some .held⟩, .ok [], .ok⟩).1 ∧
    BrkTrd.Ingest.Event.fetchCall ∈
      (BrkTrd.Ingest.ingestSingle (fun l => l) [] ⟨none, .ok [], .ok⟩).1 := by
  have h1 := (C10_lock_gate (fun l => l) []).1 (.ok []) .ok (some .held)
    (Or.inr (Or.inl rfl))
  have h2 := (C10_lock_gate (fun l => l) []).2 (.ok []) .ok
  exact ⟨h1.1, h1.2, h2.2.2⟩
